import Mathlib

/-!
Verification of the rs-mojave network node core against its specification.

The definitions below are shallow embeddings of the Rust sources:
* the slab-backed id allocators (`ConnectionId` / `StreamId` pools),
* `StreamProtocol` parsing and formatting (including a faithful model of
  strict semver parsing as performed by the `semver` crate),
* the substream negotiators (outbound and inbound),
* the peer manager's pending-event handling,
* the established-connection close routine,
* the ping protocol handler and its error type.

Strings are embedded as `List Char` (the code works on UTF-8 Rust strings;
every character involved is ASCII).  Machine integers are embedded as `Nat`
(`usize` indices never overflow in the modelled operations; `u64` bounds are
made explicit where the source checks them).  Panics (`unwrap`, `todo!`,
slab's invalid-key panic) are embedded as `Option`/dedicated `crash`
constructors.
-/

/-- One slot of the `slab::Slab` backing the id allocators: either occupied,
or vacant and storing the index of the next slot on the free list. -/
inductive SlabEntry where
  | occupied
  | vacant (nxt : Nat)
deriving DecidableEq, Repr

/-- The `slab::Slab<()>` state backing `CONNECTION_ID_ALLOCATOR` and
`STREAM_ID_ALLOCATOR`: the entry vector plus the head of the intrusive free
list (field `next` in the crate). -/
structure Slab where
  entries : List SlabEntry
  next : Nat
deriving DecidableEq, Repr

/-- `Slab::new()`: no entries, free-list head at 0 (= length). -/
def Slab.empty : Slab := ⟨[], 0⟩

/-- An id is live when its slot is occupied. -/
def Slab.live (s : Slab) (i : Nat) : Prop := s.entries[i]? = some .occupied

instance (s : Slab) (i : Nat) : Decidable (s.live i) := by
  unfold Slab.live; infer_instance

/-- `Slab::insert(())` = `ConnectionId::next()` / `StreamId::next()`:
take the slot named by the free-list head; if it equals the length, push a
fresh slot, otherwise occupy the vacant slot and advance the head to the
stored pointer.  `none` models the `unreachable!()` hit when the head names
an occupied or out-of-range slot (impossible on well-formed states). -/
def Slab.insertOp (s : Slab) : Option (Slab × Nat) :=
  if s.next = s.entries.length then
    some (⟨s.entries ++ [.occupied], s.next + 1⟩, s.next)
  else
    match s.entries[s.next]? with
    | some (.vacant q) => some (⟨s.entries.set s.next .occupied, q⟩, s.next)
    | _ => none

/-- `Slab::remove(i)` = `ConnectionId::remove` / `StreamId::remove`: the slot
must be occupied, and becomes the new head of the free list.  `none` models
the panic raised on a vacant or out-of-range key. -/
def Slab.removeOp (s : Slab) (i : Nat) : Option Slab :=
  match s.entries[i]? with
  | some .occupied => some ⟨s.entries.set i (.vacant s.next), i⟩
  | _ => none

/-- The free list of a slab: `FreeChain entries p fl` says that following the
vacant-slot pointers from `p` visits exactly the slots in `fl`, terminating
at the sentinel `entries.length`. -/
inductive FreeChain (entries : List SlabEntry) : Nat → List Nat → Prop where
  | nil : FreeChain entries entries.length []
  | cons {p q : Nat} {fl : List Nat} :
      entries[p]? = some (.vacant q) → FreeChain entries q fl →
      FreeChain entries p (p :: fl)

/-- Well-formedness of a slab: the free list starting at `next` is acyclic
and enumerates exactly the vacant slots. -/
def Slab.WF (s : Slab) : Prop :=
  ∃ fl : List Nat,
    FreeChain s.entries s.next fl ∧
    (∀ i q, s.entries[i]? = some (.vacant q) → i ∈ fl) ∧
    (∀ i ∈ fl, ∃ q, s.entries[i]? = some (.vacant q)) ∧
    fl.Nodup

theorem slab_getElem?_set_self {l : List SlabEntry} {i : Nat} (a : SlabEntry)
    (h : i < l.length) : (l.set i a)[i]? = some a := by
  induction l generalizing i with
  | nil => simp at h
  | cons x xs ih =>
    cases i with
    | zero => simp
    | succ j => simpa using ih (by simpa using h)

theorem slab_getElem?_set_ne {l : List SlabEntry} {i j : Nat} (a : SlabEntry)
    (h : i ≠ j) : (l.set i a)[j]? = l[j]? := by
  induction l generalizing i j with
  | nil => simp
  | cons x xs ih =>
    cases i with
    | zero =>
      cases j with
      | zero => exact absurd rfl h
      | succ j' => simp
    | succ i' =>
      cases j with
      | zero => simp
      | succ j' =>
        simp only [List.set_cons_succ, List.getElem?_cons_succ]
        exact ih (fun hc => h (by simp [hc]))

theorem slab_getElem?_concat_self (l : List SlabEntry) (a : SlabEntry) :
    (l ++ [a])[l.length]? = some a := by
  induction l with
  | nil => rfl
  | cons x xs ih => simp

theorem slab_getElem?_append_left {l : List SlabEntry} {i : Nat}
    (a : SlabEntry) (h : i < l.length) : (l ++ [a])[i]? = l[i]? := by
  induction l generalizing i with
  | nil => simp at h
  | cons x xs ih =>
    cases i with
    | zero => simp
    | succ j => simpa using ih (by simpa using h)

/-- A free chain is unaffected by overwriting a slot it does not visit. -/
theorem FreeChain.set_of_not_mem {entries : List SlabEntry} {p : Nat}
    {fl : List Nat} (h : FreeChain entries p fl) {j : Nat} (a : SlabEntry)
    (hj : j ∉ fl) : FreeChain (entries.set j a) p fl := by
  induction h with
  | nil =>
    have hlen : (entries.set j a).length = entries.length := by simp
    exact hlen ▸ FreeChain.nil
  | @cons p' q fl' hget _ ih =>
    have hp' : j ≠ p' := fun hc => hj (hc ▸ List.mem_cons_self _ _)
    refine FreeChain.cons ?_ (ih (fun hm => hj (List.mem_cons_of_mem _ hm)))
    rw [slab_getElem?_set_ne a hp']
    exact hget

/-- Inversion on the head of a free chain. -/
theorem FreeChain.head_cases {entries : List SlabEntry} {p : Nat}
    {fl : List Nat} (h : FreeChain entries p fl) :
    (p = entries.length ∧ fl = []) ∨
    ∃ q fl', fl = p :: fl' ∧ entries[p]? = some (.vacant q) ∧
      FreeChain entries q fl' := by
  cases h with
  | nil => exact Or.inl ⟨rfl, rfl⟩
  | cons hget htail => exact Or.inr ⟨_, _, rfl, hget, htail⟩

/-- The empty slab is well-formed. -/
theorem Slab.WF_empty : Slab.empty.WF := by
  refine ⟨[], FreeChain.nil, ?_, ?_, List.nodup_nil⟩
  · intro i q h; simp [Slab.empty] at h
  · intro i h; simp at h

/-- On a well-formed slab, `insert` succeeds, returns an id that was not live
at the time of the call and is live afterwards, does not disturb other slots,
and preserves well-formedness. -/
theorem Slab.insertOp_spec {s : Slab} (hwf : s.WF) :
    ∃ s' k, s.insertOp = some (s', k) ∧ ¬ s.live k ∧ s'.live k ∧
      (∀ j, j ≠ k → (s'.live j ↔ s.live j)) ∧ s'.WF := by
  obtain ⟨fl, hchain, hallin, hallvac, hnd⟩ := hwf
  rcases hchain.head_cases with ⟨hlen, hfl⟩ | ⟨q, fl', hfl, hget, htail⟩
  · -- push branch: fresh slot at the end
    subst hfl
    refine ⟨⟨s.entries ++ [.occupied], s.next + 1⟩, s.next, ?_, ?_, ?_, ?_, ?_⟩
    · simp [Slab.insertOp, hlen]
    · simp [Slab.live, hlen]
    · simp [Slab.live, hlen, slab_getElem?_concat_self]
    · intro j hj
      by_cases hjlt : j < s.entries.length
      · simp [Slab.live, slab_getElem?_append_left _ hjlt]
      · have h1 : (s.entries ++ [SlabEntry.occupied])[j]? = none := by
          apply List.getElem?_eq_none
          simp only [List.length_append, List.length_cons, List.length_nil]
          omega
        have h2 : s.entries[j]? = none := List.getElem?_eq_none (by omega)
        simp [Slab.live, h1, h2]
    · refine ⟨[], ?_, ?_, ?_, List.nodup_nil⟩
      · have hl2 : (s.entries ++ [SlabEntry.occupied]).length = s.next + 1 := by
          simp [hlen]
        exact hl2 ▸ FreeChain.nil
      · intro i q h
        by_cases hi : i < s.entries.length
        · rw [slab_getElem?_append_left _ hi] at h
          exact absurd (hallin i q h) (by simp)
        · by_cases hie : i = s.entries.length
          · rw [hie, slab_getElem?_concat_self] at h; exact absurd h (by simp)
          · rw [List.getElem?_eq_none (by simp; omega)] at h
            exact absurd h (by simp)
      · intro i h; simp at h
  · -- reuse branch: pop the head of the free list
    subst hfl
    have hlen : s.next ≠ s.entries.length := by
      intro hc
      rw [List.getElem?_eq_none (le_of_eq hc.symm)] at hget
      exact absurd hget (by simp)
    have hnextlt : s.next < s.entries.length := by
      by_contra hc
      rw [List.getElem?_eq_none (by omega)] at hget
      exact absurd hget (by simp)
    have hnmem : s.next ∉ fl' := (List.nodup_cons.mp hnd).1
    refine ⟨⟨s.entries.set s.next .occupied, q⟩, s.next, ?_, ?_, ?_, ?_, ?_⟩
    · simp [Slab.insertOp, hlen, hget]
    · simp [Slab.live, hget]
    · simp [Slab.live, slab_getElem?_set_self _ hnextlt]
    · intro j hj
      simp [Slab.live, slab_getElem?_set_ne _ (fun hc => hj hc.symm)]
    · refine ⟨fl', ?_, ?_, ?_, (List.nodup_cons.mp hnd).2⟩
      · exact htail.set_of_not_mem _ hnmem
      · intro i r h
        by_cases hi : i = s.next
        · rw [hi, slab_getElem?_set_self _ hnextlt] at h
          exact absurd h (by simp)
        · rw [slab_getElem?_set_ne _ (fun hc => hi hc.symm)] at h
          rcases List.mem_cons.mp (hallin i r h) with hc | hc
          · exact absurd hc hi
          · exact hc
      · intro i h
        have hi : i ≠ s.next := fun hc => hnmem (hc ▸ h)
        rw [slab_getElem?_set_ne _ (fun hc => hi hc.symm)]
        exact hallvac i (List.mem_cons_of_mem _ h)

/-- Removing a live id succeeds, the id is no longer live afterwards, other
slots are untouched, and well-formedness is preserved. -/
theorem Slab.removeOp_spec {s : Slab} {i : Nat} (hwf : s.WF) (hl : s.live i) :
    ∃ s', s.removeOp i = some s' ∧ ¬ s'.live i ∧
      (∀ j, j ≠ i → (s'.live j ↔ s.live j)) ∧ s'.WF := by
  obtain ⟨fl, hchain, hallin, hallvac, hnd⟩ := hwf
  have hl' : s.entries[i]? = some .occupied := hl
  have hilt : i < s.entries.length := by
    by_contra hc
    rw [List.getElem?_eq_none (by omega)] at hl'
    exact absurd hl' (by simp)
  have himem : i ∉ fl := by
    intro hm
    rcases hallvac i hm with ⟨q, hq⟩
    rw [hq] at hl'; exact absurd hl' (by simp)
  refine ⟨⟨s.entries.set i (.vacant s.next), i⟩, ?_, ?_, ?_, ?_⟩
  · simp [Slab.removeOp, hl']
  · simp [Slab.live, slab_getElem?_set_self _ hilt]
  · intro j hj
    simp [Slab.live, slab_getElem?_set_ne _ (fun hc => hj hc.symm)]
  · refine ⟨i :: fl, ?_, ?_, ?_, List.nodup_cons.mpr ⟨himem, hnd⟩⟩
    · exact FreeChain.cons (slab_getElem?_set_self _ hilt)
        (hchain.set_of_not_mem _ himem)
    · intro j r h
      by_cases hji : j = i
      · exact hji ▸ List.mem_cons_self _ _
      · rw [slab_getElem?_set_ne _ (fun hc => hji hc.symm)] at h
        exact List.mem_cons_of_mem _ (hallin j r h)
    · intro j h
      rcases List.mem_cons.mp h with rfl | hc
      · exact ⟨s.next, slab_getElem?_set_self _ hilt⟩
      · have hji : j ≠ i := fun hc2 => himem (hc2 ▸ hc)
        rw [slab_getElem?_set_ne _ (fun hc2 => hji hc2.symm)]
        exact hallvac j hc

/-- Removing an id that is not live panics (the slab raises an invalid-key
panic), modelled as `none`. -/
theorem Slab.removeOp_not_live {s : Slab} {i : Nat} (h : ¬ s.live i) :
    s.removeOp i = none := by
  unfold Slab.removeOp
  unfold Slab.live at h
  cases hget : s.entries[i]? with
  | none => rfl
  | some e =>
    cases e with
    | occupied => exact absurd hget h
    | vacant q => rfl

/-- A client operation on an id pool: `ConnectionId::next()` /
`StreamId::next()` or `ConnectionId::remove(i)` / `StreamId::remove(i)`.
Both allocators are separate instances of the same slab structure. -/
inductive PoolOp where
  | next
  | release (i : Nat)
deriving DecidableEq, Repr

/-- Apply one pool operation; `none` models a panic. -/
def Slab.applyOp (s : Slab) : PoolOp → Option Slab
  | .next => s.insertOp.map Prod.fst
  | .release i => s.removeOp i

/-- Run a sequence of pool operations from a state; `none` once any
operation panics. -/
def Slab.runOps (s : Slab) : List PoolOp → Option Slab
  | [] => some s
  | op :: ops =>
    match s.applyOp op with
    | none => none
    | some s' => s'.runOps ops

/-- Well-formedness is preserved by every successful operation sequence. -/
theorem Slab.runOps_WF :
    ∀ (ops : List PoolOp) (s s' : Slab), s.WF → s.runOps ops = some s' →
      s'.WF := by
  intro ops
  induction ops with
  | nil =>
    intro s s' hwf h
    simp [Slab.runOps] at h
    exact h ▸ hwf
  | cons op ops ih =>
    intro s s' hwf h
    unfold Slab.runOps at h
    cases hop : s.applyOp op with
    | none => rw [hop] at h; exact absurd h (by simp)
    | some s1 =>
      rw [hop] at h
      apply ih s1 s' ?_ h
      cases op with
      | next =>
        obtain ⟨s'', k, hins, _, _, _, hwf'⟩ := Slab.insertOp_spec hwf
        simp [Slab.applyOp, hins] at hop
        exact hop ▸ hwf'
      | release i =>
        by_cases hl : s.live i
        · obtain ⟨s'', hrem, _, _, hwf'⟩ := Slab.removeOp_spec hwf hl
          simp [Slab.applyOp, hrem] at hop
          exact hop ▸ hwf'
        · simp [Slab.applyOp, Slab.removeOp_not_live hl] at hop

/-- C2: for every sequence of `next()`/`release()` operations on an id pool
(`ConnectionId` or `StreamId`, both backed by this slab), every id returned
by `next()` is distinct from all ids currently live in the pool at the time
of the call; an id that is live stays live (and hence is never handed out
again) until it is released, after which the slot is free; and releasing an
id that is not currently live signals fatally (the slab panics, modelled as
`none`). -/
theorem claim_C2_id_pool (ops : List PoolOp) (s' : Slab)
    (h : Slab.empty.runOps ops = some s') :
    (∃ s'' k, s'.insertOp = some (s'', k) ∧ ¬ s'.live k ∧ s''.live k ∧
      (∀ j, j ≠ k → (s''.live j ↔ s'.live j))) ∧
    (∀ i, s'.live i → ∃ s'', s'.removeOp i = some s'' ∧ ¬ s''.live i ∧
      (∀ j, j ≠ i → (s''.live j ↔ s'.live j))) ∧
    (∀ i, ¬ s'.live i → s'.removeOp i = none) := by
  have hwf : s'.WF := Slab.runOps_WF ops Slab.empty s' Slab.WF_empty h
  refine ⟨?_, ?_, ?_⟩
  · obtain ⟨s'', k, hins, hnl, hl, hfr, _⟩ := Slab.insertOp_spec hwf
    exact ⟨s'', k, hins, hnl, hl, hfr⟩
  · intro i hl
    obtain ⟨s'', hrem, hnl, hfr, _⟩ := Slab.removeOp_spec hwf hl
    exact ⟨s'', hrem, hnl, hfr⟩
  · intro i hnl
    exact Slab.removeOp_not_live hnl

/-- Witness for C2 at a concrete run: allocate one id then release it;
releasing the non-live id 5 afterwards signals fatally. -/
theorem claim_C2_id_pool_witness :
    (Slab.mk [SlabEntry.vacant 1] 0).removeOp 5 = none := by
  have h := claim_C2_id_pool [PoolOp.next, PoolOp.release 0]
    ⟨[SlabEntry.vacant 1], 0⟩ rfl
  exact h.2.2 5 (by decide)

/-! ### StreamProtocol: characters and decimal numerals

The `semver` crate parses ASCII decimal numerals with a leading-zero check
and a `u64` overflow check; identifiers admit ASCII alphanumerics and
hyphens.  Characters are embedded as `Char`, numerals as `Nat` with the
`u64` bound explicit. -/

/-- The ten ASCII digits. -/
def digitChars : List Char := ['0', '1', '2', '3', '4', '5', '6', '7', '8', '9']

/-- ASCII digit test (`u8::is_ascii_digit` on the bytes of the input). -/
def isDigitC (c : Char) : Bool := c ∈ digitChars

/-- Value of an ASCII digit (`digit - b'0'`). -/
def digitVal (c : Char) : Nat := digitChars.indexOf c

/-- Read a digit string most-significant-first (`value * 10 + digit`). -/
def digitsToNat (cs : List Char) : Nat :=
  cs.foldl (fun acc c => 10 * acc + digitVal c) 0

/-- Print a `Nat` in decimal, fuel-based so that it evaluates by kernel
reduction (the fuel `n + 1` always suffices). -/
def natToDigitsAux : Nat → Nat → List Char → List Char
  | 0, _, acc => acc
  | fuel + 1, n, acc =>
    if n < 10 then Nat.digitChar n :: acc
    else natToDigitsAux fuel (n / 10) (Nat.digitChar (n % 10) :: acc)

/-- Print a `Nat` in decimal (`u64`'s `Display`). -/
def natToDigits (n : Nat) : List Char := natToDigitsAux (n + 1) n []

theorem natToDigitsAux_acc :
    ∀ (fuel n : Nat) (acc : List Char),
      natToDigitsAux fuel n acc = natToDigitsAux fuel n [] ++ acc := by
  intro fuel
  induction fuel with
  | zero => intro n acc; rfl
  | succ fuel ih =>
    intro n acc
    unfold natToDigitsAux
    by_cases h : n < 10
    · rw [if_pos h, if_pos h]; rfl
    · rw [if_neg h, if_neg h, ih (n / 10) (Nat.digitChar (n % 10) :: acc),
        ih (n / 10) [Nat.digitChar (n % 10)]]
      simp

theorem natToDigitsAux_fuel :
    ∀ (n fuel₁ fuel₂ : Nat), n < fuel₁ → n < fuel₂ →
      natToDigitsAux fuel₁ n [] = natToDigitsAux fuel₂ n [] := by
  intro n
  induction n using Nat.strong_induction_on with
  | _ n ih =>
    intro fuel₁ fuel₂ h₁ h₂
    cases fuel₁ with
    | zero => omega
    | succ f₁ =>
      cases fuel₂ with
      | zero => omega
      | succ f₂ =>
        unfold natToDigitsAux
        by_cases h : n < 10
        · rw [if_pos h, if_pos h]
        · rw [if_neg h, if_neg h,
            natToDigitsAux_acc f₁ (n / 10) [Nat.digitChar (n % 10)],
            natToDigitsAux_acc f₂ (n / 10) [Nat.digitChar (n % 10)]]
          have hlt : n / 10 < n := Nat.div_lt_self (by omega) (by omega)
          rw [ih (n / 10) hlt f₁ f₂ (by omega) (by omega)]

/-- The one-step unfolding of the decimal printer. -/
theorem natToDigits_eq (n : Nat) :
    natToDigits n = if n < 10 then [Nat.digitChar n]
      else natToDigits (n / 10) ++ [Nat.digitChar (n % 10)] := by
  unfold natToDigits
  conv_lhs => rw [natToDigitsAux]
  by_cases h : n < 10
  · rw [if_pos h, if_pos h]
  · rw [if_neg h, if_neg h,
      natToDigitsAux_acc n (n / 10) [Nat.digitChar (n % 10)],
      natToDigitsAux_fuel (n / 10) n (n / 10 + 1)
        (Nat.div_lt_self (by omega) (by omega)) (by omega)]

theorem digitVal_digitChar {n : Nat} (h : n < 10) :
    digitVal (Nat.digitChar n) = n := by
  interval_cases n <;> decide

theorem isDigitC_digitChar {n : Nat} (h : n < 10) :
    isDigitC (Nat.digitChar n) = true := by
  interval_cases n <;> decide

theorem digitChar_digitVal {c : Char} (h : isDigitC c = true) :
    Nat.digitChar (digitVal c) = c := by
  unfold isDigitC at h
  rcases (by simpa [digitChars] using h :
    c = '0' ∨ c = '1' ∨ c = '2' ∨ c = '3' ∨ c = '4' ∨ c = '5' ∨ c = '6' ∨
    c = '7' ∨ c = '8' ∨ c = '9') with
    rfl | rfl | rfl | rfl | rfl | rfl | rfl | rfl | rfl | rfl <;> decide

theorem digitVal_lt_ten {c : Char} (h : isDigitC c = true) : digitVal c < 10 := by
  unfold isDigitC at h
  rcases (by simpa [digitChars] using h :
    c = '0' ∨ c = '1' ∨ c = '2' ∨ c = '3' ∨ c = '4' ∨ c = '5' ∨ c = '6' ∨
    c = '7' ∨ c = '8' ∨ c = '9') with
    rfl | rfl | rfl | rfl | rfl | rfl | rfl | rfl | rfl | rfl <;> decide

theorem digitVal_pos {c : Char} (h : isDigitC c = true) (h0 : c ≠ '0') :
    0 < digitVal c := by
  unfold isDigitC at h
  rcases (by simpa [digitChars] using h :
    c = '0' ∨ c = '1' ∨ c = '2' ∨ c = '3' ∨ c = '4' ∨ c = '5' ∨ c = '6' ∨
    c = '7' ∨ c = '8' ∨ c = '9') with
    rfl | rfl | rfl | rfl | rfl | rfl | rfl | rfl | rfl | rfl
  · exact absurd rfl h0
  all_goals decide

theorem digitsToNat_append (a : List Char) (c : Char) :
    digitsToNat (a ++ [c]) = 10 * digitsToNat a + digitVal c := by
  unfold digitsToNat
  rw [List.foldl_append]
  rfl


/-- Auxiliary: folding digits from an arbitrary accumulator. -/
theorem foldl_digits_acc (cs : List Char) (x : Nat) :
    cs.foldl (fun acc c => 10 * acc + digitVal c) x =
      x * 10 ^ cs.length + cs.foldl (fun acc c => 10 * acc + digitVal c) 0 := by
  induction cs generalizing x with
  | nil => simp
  | cons c cs ih =>
    simp only [List.foldl_cons, List.length_cons]
    rw [ih (10 * x + digitVal c), ih (10 * 0 + digitVal c)]
    ring

theorem digitsToNat_cons (c : Char) (cs : List Char) :
    digitsToNat (c :: cs) = digitVal c * 10 ^ cs.length + digitsToNat cs := by
  unfold digitsToNat
  simp only [List.foldl_cons]
  rw [foldl_digits_acc]
  ring

/-- A digit string whose head is a nonzero digit reads back positive. -/
theorem digitsToNat_pos {c : Char} {cs : List Char} (h : isDigitC c = true)
    (h0 : c ≠ '0') : 0 < digitsToNat (c :: cs) := by
  rw [digitsToNat_cons]
  have h1 := digitVal_pos h h0
  have hp : 0 < 10 ^ cs.length := Nat.pos_pow_of_pos _ (by omega)
  exact Nat.lt_of_lt_of_le (Nat.mul_pos h1 hp) (Nat.le_add_right _ _)

theorem natToDigits_ne_nil (n : Nat) : natToDigits n ≠ [] := by
  rw [natToDigits_eq]
  split
  · simp
  · simp

theorem natToDigits_all_digits (n : Nat) :
    (natToDigits n).all isDigitC = true := by
  induction n using Nat.strong_induction_on with
  | _ n ih =>
    rw [natToDigits_eq]
    split
    · rename_i h
      simp [isDigitC_digitChar h]
    · rename_i h
      have h1 := ih (n / 10) (Nat.div_lt_self (by omega) (by omega))
      have h2 : isDigitC (Nat.digitChar (n % 10)) = true :=
        isDigitC_digitChar (Nat.mod_lt _ (by omega))
      simp [List.all_append, h1, h2]

theorem digitsToNat_natToDigits (n : Nat) :
    digitsToNat (natToDigits n) = n := by
  induction n using Nat.strong_induction_on with
  | _ n ih =>
    rw [natToDigits_eq]
    split
    · rename_i h
      rw [show [Nat.digitChar n] = [] ++ [Nat.digitChar n] from rfl,
        digitsToNat_append]
      simp [digitsToNat, digitVal_digitChar h]
    · rename_i h
      rw [digitsToNat_append, ih (n / 10) (Nat.div_lt_self (by omega) (by omega)),
        digitVal_digitChar (Nat.mod_lt _ (by omega))]
      omega

/-- The decimal print of a positive number does not start with `0`. -/
theorem natToDigits_head_ne_zero {n : Nat} (h : 0 < n) :
    (natToDigits n).head? ≠ some '0' := by
  induction n using Nat.strong_induction_on with
  | _ n ih =>
    rw [natToDigits_eq]
    split
    · rename_i hlt
      intro hc
      simp only [List.head?] at hc
      have hn : Nat.digitChar n = '0' := Option.some.inj hc
      interval_cases n <;> exact absurd hn (by decide)
    · rename_i hlt
      rw [List.head?_append_of_ne_nil _ (natToDigits_ne_nil (n / 10))]
      exact ih (n / 10) (Nat.div_lt_self (by omega) (by omega))
        (Nat.div_pos (by omega) (by omega))

/-- The decimal print of `0` is the single digit `0`. -/
theorem natToDigits_zero : natToDigits 0 = ['0'] := by
  rfl


/-- Printing then reading: a valid numeral string (nonempty, all digits, no
leading zero) is reproduced by the decimal printer. -/
theorem natToDigits_digitsToNat :
    ∀ cs : List Char, cs ≠ [] → cs.all isDigitC = true →
      (cs.head? = some '0' → cs.length = 1) →
      natToDigits (digitsToNat cs) = cs := by
  intro cs
  induction cs using List.reverseRecOn with
  | nil => intro hne _ _; exact absurd rfl hne
  | append_singleton a c ih =>
    intro _ hall hlead
    have hcd : isDigitC c = true := by
      rw [List.all_append] at hall
      have := (Bool.and_eq_true_iff.mp hall).2
      simpa using this
    cases a with
    | nil =>
      have hval : digitsToNat [c] = digitVal c := by simp [digitsToNat]
      rw [List.nil_append, hval, natToDigits_eq,
        if_pos (digitVal_lt_ten hcd), digitChar_digitVal hcd]
    | cons h0 hs =>
      have halla : (h0 :: hs).all isDigitC = true := by
        rw [List.all_append] at hall
        exact (Bool.and_eq_true_iff.mp hall).1
      have hh0d : isDigitC h0 = true := by
        rw [List.all_cons] at halla
        exact (Bool.and_eq_true_iff.mp halla).1
      have hh0 : h0 ≠ '0' := by
        intro hc0
        have hhead : ((h0 :: hs) ++ [c]).head? = some '0' := by simp [hc0]
        have := hlead hhead
        simp at this
      have hpos : 0 < digitsToNat (h0 :: hs) := digitsToNat_pos hh0d hh0
      have hia := ih (by simp) halla
        (fun hx => absurd (Option.some.inj hx) hh0)
      rw [digitsToNat_append, natToDigits_eq]
      have hge : ¬ 10 * digitsToNat (h0 :: hs) + digitVal c < 10 := by omega
      rw [if_neg hge]
      have hdiv : (10 * digitsToNat (h0 :: hs) + digitVal c) / 10 =
          digitsToNat (h0 :: hs) := by
        rw [Nat.mul_add_div (by omega)]
        simp [Nat.div_eq_of_lt (digitVal_lt_ten hcd)]
      have hmod : (10 * digitsToNat (h0 :: hs) + digitVal c) % 10 =
          digitVal c := by
        rw [Nat.mul_add_mod]
        exact Nat.mod_eq_of_lt (digitVal_lt_ten hcd)
      rw [hdiv, hmod, hia, digitChar_digitVal hcd]

/-! ### Semver identifiers and version strings -/

/-- Identifier characters admitted by the semver crate: ASCII alphanumerics
and hyphen. -/
def isIdentChar (c : Char) : Bool := isDigitC c || c.isAlpha || c == '-'

/-- Split a string at every dot, mirroring `str::split('.')` (an empty
string yields one empty piece). -/
def splitDots : List Char → List (List Char)
  | [] => [[]]
  | c :: rest =>
    if c = '.' then [] :: splitDots rest
    else
      match splitDots rest with
      | [] => [[c]]
      | a :: r => (c :: a) :: r

theorem splitDots_ne_nil (cs : List Char) : splitDots cs ≠ [] := by
  induction cs with
  | nil => simp [splitDots]
  | cons c rest ih =>
    unfold splitDots
    split
    · simp
    · cases h : splitDots rest with
      | nil => simp
      | cons a r => simp

/-- Every character of a dotted-identifier string is a dot or belongs to one
of its pieces. -/
theorem mem_splitDots {c : Char} {cs : List Char} (h : c ∈ cs) :
    c = '.' ∨ ∃ id_ ∈ splitDots cs, c ∈ id_ := by
  induction cs with
  | nil => simp at h
  | cons x rest ih =>
    by_cases hx : x = '.'
    · unfold splitDots
      rw [if_pos hx]
      rcases List.mem_cons.mp h with hcx | hm
      · exact Or.inl (hcx.trans hx)
      · rcases ih hm with hdot | ⟨id_, hid, hc⟩
        · exact Or.inl hdot
        · exact Or.inr ⟨id_, List.mem_cons_of_mem _ hid, hc⟩
    · unfold splitDots
      rw [if_neg hx]
      cases hs : splitDots rest with
      | nil => exact absurd hs (splitDots_ne_nil rest)
      | cons a r =>
        rcases List.mem_cons.mp h with hcx | hm
        · refine Or.inr ⟨x :: a, List.mem_cons_self _ _, ?_⟩
          rw [hcx]
          exact List.mem_cons_self _ _
        · rcases ih hm with hdot | ⟨id_, hid, hc⟩
          · exact Or.inl hdot
          · rw [hs] at hid
            rcases List.mem_cons.mp hid with hida | hid'
            · refine Or.inr ⟨x :: a, List.mem_cons_self _ _, ?_⟩
              rw [hida] at hc
              exact List.mem_cons_of_mem _ hc
            · exact Or.inr ⟨id_, List.mem_cons_of_mem _ hid', hc⟩

/-- One pre-release identifier: nonempty, identifier characters only, and if
fully numeric then no leading zero. -/
def validPreIdent (id_ : List Char) : Bool :=
  !id_.isEmpty && id_.all isIdentChar &&
    (!(id_.all isDigitC) || !(id_.head? = some '0' && id_.length != 1))

/-- One build-metadata identifier: nonempty, identifier characters only
(leading zeros permitted). -/
def validBuildIdent (id_ : List Char) : Bool :=
  !id_.isEmpty && id_.all isIdentChar

/-- A valid (nonempty) pre-release string: every dot-separated piece is a
valid pre-release identifier. -/
def validPre (cs : List Char) : Bool := (splitDots cs).all validPreIdent

/-- A valid (nonempty) build-metadata string. -/
def validBuild (cs : List Char) : Bool := (splitDots cs).all validBuildIdent

/-- A `semver::Version` value: `major.minor.patch` plus raw pre-release and
build-metadata strings (the crate stores both as validated strings; empty
means absent). -/
structure SemVer where
  major : Nat
  minor : Nat
  patch : Nat
  pre : List Char
  build : List Char
deriving DecidableEq, Repr

/-- The invariant the `semver` crate maintains on `Version` values: the
numeric components fit in `u64` and the pre/build strings, when present,
are valid identifier sequences. -/
def SemVer.Valid (v : SemVer) : Prop :=
  v.major < 2 ^ 64 ∧ v.minor < 2 ^ 64 ∧ v.patch < 2 ^ 64 ∧
  (v.pre = [] ∨ validPre v.pre = true) ∧
  (v.build = [] ∨ validBuild v.build = true)

instance (v : SemVer) : Decidable v.Valid := by
  unfold SemVer.Valid; infer_instance

/-- `numeric_identifier` of the semver crate: a nonempty digit prefix, no
leading zero, value below `2 ^ 64`; returns the value and the rest. -/
def parseNumPrefix (cs : List Char) : Option (Nat × List Char) :=
  let ds := cs.takeWhile isDigitC
  let rest := cs.dropWhile isDigitC
  if ds.isEmpty then none
  else if ds.head? = some '0' && ds.length != 1 then none
  else if 2 ^ 64 ≤ digitsToNat ds then none
  else some (digitsToNat ds, rest)

/-- `Version::parse` of the semver crate: `major.minor.patch`, then an
optional `-pre` (up to `+` or the end), then an optional `+build`. -/
def parseVersion (cs : List Char) : Option SemVer :=
  match parseNumPrefix cs with
  | none => none
  | some (major, rest) =>
    match rest with
    | [] => none
    | c1 :: rest1 =>
      if c1 = '.' then
        match parseNumPrefix rest1 with
        | none => none
        | some (minor, rest2) =>
          match rest2 with
          | [] => none
          | c2 :: rest3 =>
            if c2 = '.' then
              match parseNumPrefix rest3 with
              | none => none
              | some (patch, rest4) =>
                match rest4 with
                | [] => some ⟨major, minor, patch, [], []⟩
                | c3 :: rest5 =>
                  if c3 = '-' then
                    let preChars := rest5.takeWhile (· != '+')
                    let rest6 := rest5.dropWhile (· != '+')
                    if validPre preChars then
                      match rest6 with
                      | [] => some ⟨major, minor, patch, preChars, []⟩
                      | c4 :: buildChars =>
                        if c4 = '+' then
                          if validBuild buildChars then
                            some ⟨major, minor, patch, preChars, buildChars⟩
                          else none
                        else none
                    else none
                  else if c3 = '+' then
                    if validBuild rest5 then
                      some ⟨major, minor, patch, [], rest5⟩
                    else none
                  else none
            else none
      else none

/-- `Display for Version`: `major.minor.patch[-pre][+build]`. -/
def versionToString (v : SemVer) : List Char :=
  natToDigits v.major ++ '.' :: natToDigits v.minor ++ '.' :: natToDigits v.patch
    ++ (if v.pre = [] then [] else '-' :: v.pre)
    ++ (if v.build = [] then [] else '+' :: v.build)

theorem takeWhile_append_of_all {p : Char → Bool} :
    ∀ (a rest : List Char), a.all p = true →
      (∀ c, rest.head? = some c → p c = false) →
      (a ++ rest).takeWhile p = a ∧ (a ++ rest).dropWhile p = rest := by
  intro a
  induction a with
  | nil =>
    intro rest _ hrest
    cases rest with
    | nil => simp
    | cons c r =>
      have := hrest c rfl
      simp [List.takeWhile, List.dropWhile, this]
  | cons x xs ih =>
    intro rest hall hrest
    have hx : p x = true := by
      rw [List.all_cons] at hall
      exact (Bool.and_eq_true_iff.mp hall).1
    have hxs : xs.all p = true := by
      rw [List.all_cons] at hall
      exact (Bool.and_eq_true_iff.mp hall).2
    have hih := ih rest hxs hrest
    simp [List.takeWhile, List.dropWhile, hx, hih.1, hih.2]

theorem all_takeWhile (p : Char → Bool) :
    ∀ cs : List Char, (cs.takeWhile p).all p = true := by
  intro cs
  induction cs with
  | nil => simp
  | cons c r ih =>
    unfold List.takeWhile
    cases hc : p c with
    | false => simp
    | true => simp [hc, ih]

/-- Reading a printed `u64` with a non-digit (or empty) continuation. -/
theorem parseNumPrefix_print {n : Nat} (hn : n < 2 ^ 64) (rest : List Char)
    (hrest : ∀ c, rest.head? = some c → isDigitC c = false) :
    parseNumPrefix (natToDigits n ++ rest) = some (n, rest) := by
  obtain ⟨htake, hdrop⟩ :=
    takeWhile_append_of_all (natToDigits n) rest (natToDigits_all_digits n) hrest
  unfold parseNumPrefix
  simp only [htake, hdrop]
  rw [if_neg (by simp [natToDigits_ne_nil n])]
  have hlead : (natToDigits n).head? = some '0' → (natToDigits n).length = 1 := by
    intro hh
    rcases Nat.eq_zero_or_pos n with rfl | hpos
    · rw [natToDigits_zero]; rfl
    · exact absurd hh (natToDigits_head_ne_zero hpos)
  rw [if_neg ?_, if_neg ?_]
  · rw [digitsToNat_natToDigits]
  · rw [digitsToNat_natToDigits]; omega
  · intro hc
    have h1 := (Bool.and_eq_true_iff.mp hc).1
    have h2 := (Bool.and_eq_true_iff.mp hc).2
    have := hlead (by simpa using h1)
    simp [this] at h2

/-- Reconstruction: a successful numeral parse splits the input into the
canonical print of the value and the rest. -/
theorem parseNumPrefix_inv {cs : List Char} {n : Nat} {rest : List Char}
    (h : parseNumPrefix cs = some (n, rest)) :
    cs = natToDigits n ++ rest ∧ n < 2 ^ 64 := by
  unfold parseNumPrefix at h
  by_cases h1 : (cs.takeWhile isDigitC).isEmpty
  · rw [if_pos h1] at h; exact absurd h (by simp)
  · rw [if_neg h1] at h
    by_cases h2 : (cs.takeWhile isDigitC).head? = some '0' &&
        (cs.takeWhile isDigitC).length != 1
    · rw [if_pos h2] at h; exact absurd h (by simp)
    · rw [if_neg h2] at h
      by_cases h3 : 2 ^ 64 ≤ digitsToNat (cs.takeWhile isDigitC)
      · rw [if_pos h3] at h; exact absurd h (by simp)
      · rw [if_neg h3] at h
        have hpair := Option.some.inj h
        have hn : n = digitsToNat (cs.takeWhile isDigitC) :=
          (congrArg Prod.fst hpair).symm
        have hrest : rest = cs.dropWhile isDigitC :=
          (congrArg Prod.snd hpair).symm
        have hprint : natToDigits n = cs.takeWhile isDigitC := by
          rw [hn]
          exact natToDigits_digitsToNat _ (by simpa using h1)
            (all_takeWhile _ _)
            (fun hh => by
              by_contra hlen
              exact h2 (by simp [hh, hlen]))
        constructor
        · rw [hprint, hrest, List.takeWhile_append_dropWhile]
        · rw [hn]; omega

/-- Characters of a valid pre-release string are dots or identifier chars. -/
theorem validPre_chars {cs : List Char} (h : validPre cs = true) :
    ∀ c ∈ cs, c = '.' ∨ isIdentChar c = true := by
  intro c hc
  rcases mem_splitDots hc with hdot | ⟨id_, hid, hcid⟩
  · exact Or.inl hdot
  · unfold validPre at h
    rw [List.all_eq_true] at h
    have hvalid := h id_ hid
    unfold validPreIdent at hvalid
    have hident : id_.all isIdentChar = true := by
      have h1 := (Bool.and_eq_true_iff.mp hvalid).1
      exact (Bool.and_eq_true_iff.mp h1).2
    rw [List.all_eq_true] at hident
    exact Or.inr (hident c hcid)

/-- Characters of a valid build string are dots or identifier chars. -/
theorem validBuild_chars {cs : List Char} (h : validBuild cs = true) :
    ∀ c ∈ cs, c = '.' ∨ isIdentChar c = true := by
  intro c hc
  rcases mem_splitDots hc with hdot | ⟨id_, hid, hcid⟩
  · exact Or.inl hdot
  · unfold validBuild at h
    rw [List.all_eq_true] at h
    have hvalid := h id_ hid
    unfold validBuildIdent at hvalid
    have hident : id_.all isIdentChar = true :=
      (Bool.and_eq_true_iff.mp hvalid).2
    rw [List.all_eq_true] at hident
    exact Or.inr (hident c hcid)

theorem validPre_no_plus {cs : List Char} (h : validPre cs = true) :
    ∀ c ∈ cs, (c != '+') = true := by
  intro c hc
  rcases validPre_chars h c hc with rfl | hident
  · decide
  · simp only [bne_iff_ne, ne_eq]
    intro hcp
    rw [hcp] at hident
    exact absurd hident (by decide)

theorem validPre_not_nil : validPre [] = false := by decide

theorem validBuild_not_nil : validBuild [] = false := by decide

/-- Printing then parsing a valid `semver::Version` value recovers it. -/
theorem parseVersion_versionToString {v : SemVer} (hv : v.Valid) :
    parseVersion (versionToString v) = some v := by
  obtain ⟨hM, hm, hp, hpre, hbuild⟩ := hv
  obtain ⟨major, minor, patch, pre, build⟩ := v
  simp only at hM hm hp hpre hbuild
  -- the suffix after `major.minor.patch`
  set suffix : List Char :=
    (if pre = [] then [] else '-' :: pre) ++
      (if build = [] then [] else '+' :: build) with hsuffix
  have hsufhead : ∀ c, suffix.head? = some c → isDigitC c = false := by
    intro c hc
    rw [hsuffix] at hc
    rcases em (pre = []) with hpe | hpe <;> rcases em (build = []) with hbe | hbe <;>
      simp [hpe, hbe] at hc
    · rw [← hc]; decide
    · rw [← hc]; decide
    · rw [← hc]; decide
  have step3 :
      parseNumPrefix (natToDigits patch ++ suffix) = some (patch, suffix) :=
    parseNumPrefix_print hp suffix hsufhead
  have step2 :
      parseNumPrefix (natToDigits minor ++ '.' ::
          (natToDigits patch ++ suffix)) =
        some (minor, '.' :: (natToDigits patch ++ suffix)) :=
    parseNumPrefix_print hm _ (fun c hc => by
      rw [List.head?_cons] at hc
      rw [← Option.some.inj hc]; decide)
  have step1 :
      parseNumPrefix (natToDigits major ++ '.' ::
          (natToDigits minor ++ '.' :: (natToDigits patch ++ suffix))) =
        some (major, '.' ::
          (natToDigits minor ++ '.' :: (natToDigits patch ++ suffix))) :=
    parseNumPrefix_print hM _ (fun c hc => by
      rw [List.head?_cons] at hc
      rw [← Option.some.inj hc]; decide)
  have hglue : versionToString ⟨major, minor, patch, pre, build⟩ =
      natToDigits major ++ '.' ::
        (natToDigits minor ++ '.' :: (natToDigits patch ++ suffix)) := by
    simp [versionToString, hsuffix]
  rw [hglue]
  unfold parseVersion
  rw [step1]
  dsimp only
  rw [if_pos rfl, step2]
  dsimp only
  rw [if_pos rfl, step3]
  dsimp only
  rcases em (pre = []) with hpe | hpe
  · rcases em (build = []) with hbe | hbe
    · simp [hsuffix, hpe, hbe]
    · rcases hbuild with hbe2 | hvb
      · exact absurd hbe2 hbe
      · simp only [hsuffix, hpe, if_pos rfl, if_neg hbe, List.nil_append]
        simp [hvb]
  · rcases hpre with hpe2 | hvp
    · exact absurd hpe2 hpe
    · rcases em (build = []) with hbe | hbe
      · simp only [hsuffix, if_neg hpe, hbe, if_pos rfl, List.append_nil]
        have htk := takeWhile_append_of_all pre []
          (List.all_eq_true.mpr (validPre_no_plus hvp)) (by simp)
        simp only [List.append_nil] at htk
        simp [htk.1, htk.2, hvp]
      · rcases hbuild with hbe2 | hvb
        · exact absurd hbe2 hbe
        · simp only [hsuffix, if_neg hpe, if_neg hbe]
          have htk := takeWhile_append_of_all pre ('+' :: build)
            (List.all_eq_true.mpr (validPre_no_plus hvp))
            (fun c hc => by
              rw [List.head?_cons] at hc
              rw [← Option.some.inj hc]; decide)
          simp [htk.1, htk.2, hvp, hvb]

/-- Parsing then printing reproduces a valid version string, and the parsed
value satisfies the crate's invariant. -/
theorem versionToString_parseVersion {cs : List Char} {v : SemVer}
    (h : parseVersion cs = some v) : versionToString v = cs ∧ v.Valid := by
  unfold parseVersion at h
  cases h1 : parseNumPrefix cs with
  | none => rw [h1] at h; exact absurd h (by simp)
  | some mr =>
    obtain ⟨major, rest⟩ := mr
    rw [h1] at h
    dsimp only at h
    obtain ⟨hcs, hMlt⟩ := parseNumPrefix_inv h1
    cases rest with
    | nil => exact absurd h (by simp)
    | cons c1 rest1 =>
      dsimp only at h
      by_cases hc1 : c1 = '.'
      case neg => rw [if_neg hc1] at h; exact absurd h (by simp)
      rw [if_pos hc1] at h
      subst hc1
      cases h2 : parseNumPrefix rest1 with
      | none => rw [h2] at h; exact absurd h (by simp)
      | some mr2 =>
        obtain ⟨minor, rest2⟩ := mr2
        rw [h2] at h
        dsimp only at h
        obtain ⟨hrest1, hmlt⟩ := parseNumPrefix_inv h2
        cases rest2 with
        | nil => exact absurd h (by simp)
        | cons c2 rest3 =>
          dsimp only at h
          by_cases hc2 : c2 = '.'
          case neg => rw [if_neg hc2] at h; exact absurd h (by simp)
          rw [if_pos hc2] at h
          subst hc2
          cases h3 : parseNumPrefix rest3 with
          | none => rw [h3] at h; exact absurd h (by simp)
          | some mr3 =>
            obtain ⟨patch, rest4⟩ := mr3
            rw [h3] at h
            dsimp only at h
            obtain ⟨hrest3, hplt⟩ := parseNumPrefix_inv h3
            have hcsfull : cs = natToDigits major ++ '.' ::
                (natToDigits minor ++ '.' :: (natToDigits patch ++ rest4)) := by
              rw [hcs, hrest1, hrest3]
            cases rest4 with
            | nil =>
              dsimp only at h
              have hv := Option.some.inj h
              rw [← hv]
              constructor
              · rw [hcsfull]
                simp [versionToString]
              · exact ⟨hMlt, hmlt, hplt, Or.inl rfl, Or.inl rfl⟩
            | cons c3 rest5 =>
              dsimp only at h
              by_cases hc3 : c3 = '-'
              · rw [if_pos hc3] at h
                subst hc3
                by_cases hvp : validPre (rest5.takeWhile (· != '+')) = true
                case neg =>
                  rw [if_neg hvp] at h; exact absurd h (by simp)
                rw [if_pos hvp] at h
                have hsplit5 : rest5.takeWhile (· != '+') ++
                    rest5.dropWhile (· != '+') = rest5 :=
                  List.takeWhile_append_dropWhile ..
                have hprene : rest5.takeWhile (· != '+') ≠ [] := by
                  intro hnil
                  rw [hnil] at hvp
                  exact absurd hvp (by rw [validPre_not_nil]; simp)
                cases h6 : rest5.dropWhile (· != '+') with
                | nil =>
                  rw [h6] at h
                  dsimp only at h
                  have hv := Option.some.inj h
                  rw [← hv]
                  constructor
                  · rw [hcsfull]
                    simp only [versionToString, if_neg hprene, if_pos rfl,
                      List.append_nil]
                    rw [h6] at hsplit5
                    rw [List.append_nil] at hsplit5
                    rw [hsplit5]
                    simp
                  · exact ⟨hMlt, hmlt, hplt, Or.inr hvp, Or.inl rfl⟩
                | cons c4 buildChars =>
                  rw [h6] at h
                  dsimp only at h
                  by_cases hc4 : c4 = '+'
                  case neg => rw [if_neg hc4] at h; exact absurd h (by simp)
                  rw [if_pos hc4] at h
                  subst hc4
                  by_cases hvb : validBuild buildChars = true
                  case neg => rw [if_neg hvb] at h; exact absurd h (by simp)
                  rw [if_pos hvb] at h
                  have hbne : buildChars ≠ [] := by
                    intro hnil
                    rw [hnil] at hvb
                    exact absurd hvb (by rw [validBuild_not_nil]; simp)
                  have hv := Option.some.inj h
                  rw [← hv]
                  constructor
                  · rw [hcsfull]
                    simp only [versionToString, if_neg hprene, if_neg hbne]
                    rw [h6] at hsplit5
                    rw [← hsplit5]
                    simp
                    exact (takeWhile_append_of_all _ ('+' :: buildChars)
                        (all_takeWhile _ _) (fun c hc => by
                          rw [List.head?_cons] at hc
                          rw [← Option.some.inj hc]; decide)).1
                  · exact ⟨hMlt, hmlt, hplt, Or.inr hvp, Or.inr hvb⟩
              · rw [if_neg hc3] at h
                by_cases hc3b : c3 = '+'
                case neg => rw [if_neg hc3b] at h; exact absurd h (by simp)
                rw [if_pos hc3b] at h
                subst hc3b
                by_cases hvb : validBuild rest5 = true
                case neg => rw [if_neg hvb] at h; exact absurd h (by simp)
                rw [if_pos hvb] at h
                have hbne : rest5 ≠ [] := by
                  intro hnil
                  rw [hnil] at hvb
                  exact absurd hvb (by rw [validBuild_not_nil]; simp)
                have hv := Option.some.inj h
                rw [← hv]
                constructor
                · rw [hcsfull]
                  simp [versionToString, hbne]
                · exact ⟨hMlt, hmlt, hplt, Or.inl rfl, Or.inr hvb⟩

/-! ### StreamProtocol -/

/-- `str::split_once(c)`: split at the first occurrence of `c`. -/
def splitOnce (c : Char) : List Char → Option (List Char × List Char)
  | [] => none
  | x :: xs =>
    if x = c then some ([], xs)
    else (splitOnce c xs).map (fun p => (x :: p.1, p.2))

/-- `str::rsplit_once(c)`: split at the last occurrence of `c`.  The pair is
returned in source order (prefix, suffix). -/
def rsplitOnce (c : Char) (s : List Char) : Option (List Char × List Char) :=
  (splitOnce c s.reverse).map (fun p => (p.2.reverse, p.1.reverse))

theorem splitOnce_eq {c : Char} :
    ∀ {s a b : List Char}, splitOnce c s = some (a, b) →
      s = a ++ c :: b ∧ c ∉ a := by
  intro s
  induction s with
  | nil => intro a b h; exact absurd h (by simp [splitOnce])
  | cons x xs ih =>
    intro a b h
    unfold splitOnce at h
    by_cases hx : x = c
    · rw [if_pos hx] at h
      have := Option.some.inj h
      have ha : a = [] := (congrArg Prod.fst this).symm
      have hb : b = xs := (congrArg Prod.snd this).symm
      subst ha; subst hb
      simp [hx]
    · rw [if_neg hx] at h
      cases hs : splitOnce c xs with
      | none => rw [hs] at h; exact absurd h (by simp)
      | some p =>
        rw [hs] at h
        obtain ⟨a', b'⟩ := p
        simp only [Option.map_some'] at h
        have := Option.some.inj h
        have ha : a = x :: a' := (congrArg Prod.fst this).symm
        have hb : b = b' := (congrArg Prod.snd this).symm
        subst ha; subst hb
        obtain ⟨hxs, hna⟩ := ih hs
        refine ⟨by rw [hxs]; rfl, ?_⟩
        intro hm
        rcases List.mem_cons.mp hm with hcx | hca
        · exact hx hcx.symm
        · exact hna hca

theorem splitOnce_append {c : Char} :
    ∀ (a b : List Char), c ∉ a → splitOnce c (a ++ c :: b) = some (a, b) := by
  intro a
  induction a with
  | nil => intro b _; simp [splitOnce]
  | cons x xs ih =>
    intro b hna
    have hx : x ≠ c := fun hc => hna (by simp [hc])
    rw [List.cons_append]
    unfold splitOnce
    rw [if_neg hx, ih b (fun hm => hna (List.mem_cons_of_mem _ hm))]
    rfl

theorem rsplitOnce_eq {c : Char} {s a b : List Char}
    (h : rsplitOnce c s = some (a, b)) : s = a ++ c :: b ∧ c ∉ b := by
  unfold rsplitOnce at h
  cases hs : splitOnce c s.reverse with
  | none => rw [hs] at h; exact absurd h (by simp)
  | some p =>
    rw [hs] at h
    obtain ⟨a', b'⟩ := p
    simp only [Option.map_some'] at h
    have := Option.some.inj h
    have ha : a = b'.reverse := (congrArg Prod.fst this).symm
    have hb : b = a'.reverse := (congrArg Prod.snd this).symm
    subst ha; subst hb
    obtain ⟨hrev, hna⟩ := splitOnce_eq hs
    constructor
    · have := congrArg List.reverse hrev
      rw [List.reverse_reverse] at this
      rw [this]
      simp
    · intro hm
      exact hna (by simpa using hm)

theorem rsplitOnce_append {c : Char} (a b : List Char) (hnb : c ∉ b) :
    rsplitOnce c (a ++ c :: b) = some (a, b) := by
  unfold rsplitOnce
  have hrev : (a ++ c :: b).reverse = b.reverse ++ c :: a.reverse := by
    simp
  rw [hrev, splitOnce_append b.reverse a.reverse (fun hm => hnb (by simpa using hm))]
  simp

/-- `StreamProtocol`: a versioned protocol identifier.  The source stores the
namespace under the field name `namespace` (a Lean keyword, rendered here as
`nspace`) together with the canonical text in `full`. -/
structure StreamProtocol where
  full : List Char
  nspace : List Char
  name : List Char
  version : SemVer
deriving DecidableEq, Repr

/-- `StreamProtocol::new(namespace, name, version)`: also renders the
canonical text `namespace/name@version` into `full`. -/
def StreamProtocol.new (nspace name : List Char) (v : SemVer) :
    StreamProtocol :=
  ⟨nspace ++ '/' :: name ++ '@' :: versionToString v, nspace, name, v⟩

/-- `Display for StreamProtocol`: prints `namespace/name@version` from the
components (the `full` field is not consulted). -/
def StreamProtocol.toText (p : StreamProtocol) : List Char :=
  p.nspace ++ '/' :: p.name ++ '@' :: versionToString p.version

/-- `ParseStreamProtocolError` of the source; the `semver::Error` payload of
`InvalidVersion` is not modelled. -/
inductive ParseStreamProtocolError where
  | missingAt (s : List Char)
  | missingSlash (s : List Char)
  | invalidVersion
deriving DecidableEq, Repr

/-- `StreamProtocol::from_str`: split at the last `@`, split the prefix at
the first `/`, parse the version suffix; keep the input in `full`. -/
def StreamProtocol.fromStr (s : List Char) :
    Except ParseStreamProtocolError StreamProtocol :=
  match rsplitOnce '@' s with
  | none => .error (.missingAt s)
  | some (path, versionStr) =>
    match splitOnce '/' path with
    | none => .error (.missingSlash s)
    | some (nsp, nm) =>
      match parseVersion versionStr with
      | none => .error .invalidVersion
      | some v => .ok ⟨s, nsp, nm, v⟩

/-- Every character of the canonical text of a valid version is a digit, a
dot, a hyphen, a plus, or an identifier character. -/
theorem versionToString_chars {v : SemVer} (hv : v.Valid) :
    ∀ c ∈ versionToString v,
      isDigitC c = true ∨ c = '.' ∨ c = '-' ∨ c = '+' ∨
        isIdentChar c = true := by
  obtain ⟨_, _, _, hpre, hbuild⟩ := hv
  intro c hc
  have hdig : ∀ n : Nat, c ∈ natToDigits n → isDigitC c = true := by
    intro n hmem
    have hall := natToDigits_all_digits n
    rw [List.all_eq_true] at hall
    exact hall _ hmem
  unfold versionToString at hc
  rcases List.mem_append.mp hc with hc | hcB
  · rcases List.mem_append.mp hc with hc | hcP
    · rcases List.mem_append.mp hc with hc | hcT3
      · rcases List.mem_append.mp hc with hcT1 | hcT2
        · exact Or.inl (hdig _ hcT1)
        · rcases List.mem_cons.mp hcT2 with hdot | hm
          · exact Or.inr (Or.inl hdot)
          · exact Or.inl (hdig _ hm)
      · rcases List.mem_cons.mp hcT3 with hdot | hm
        · exact Or.inr (Or.inl hdot)
        · exact Or.inl (hdig _ hm)
    · rcases em (v.pre = []) with hpe | hpe
      · rw [if_pos hpe] at hcP; simp at hcP
      · rw [if_neg hpe] at hcP
        rcases List.mem_cons.mp hcP with hh | hh
        · exact Or.inr (Or.inr (Or.inl hh))
        · rcases hpre with hpe2 | hvp
          · exact absurd hpe2 hpe
          · rcases validPre_chars hvp _ hh with hdot | hident
            · exact Or.inr (Or.inl hdot)
            · exact Or.inr (Or.inr (Or.inr (Or.inr hident)))
  · rcases em (v.build = []) with hbe | hbe
    · rw [if_pos hbe] at hcB; simp at hcB
    · rw [if_neg hbe] at hcB
      rcases List.mem_cons.mp hcB with hh | hh
      · exact Or.inr (Or.inr (Or.inr (Or.inl hh)))
      · rcases hbuild with hbe2 | hvb
        · exact absurd hbe2 hbe
        · rcases validBuild_chars hvb _ hh with hdot | hident
          · exact Or.inr (Or.inl hdot)
          · exact Or.inr (Or.inr (Or.inr (Or.inr hident)))

/-- No `@` occurs in the canonical text of a valid version. -/
theorem at_not_mem_versionToString {v : SemVer} (hv : v.Valid) :
    '@' ∉ versionToString v := by
  intro hm
  rcases versionToString_chars hv '@' hm with h | h | h | h | h
  · exact absurd h (by decide)
  · exact absurd h (by decide)
  · exact absurd h (by decide)
  · exact absurd h (by decide)
  · exact absurd h (by decide)

/-- Parse-of-print for protocols built by `StreamProtocol::new`, provided the
namespace contains no slash. -/
theorem fromStr_toText (nsp nm : List Char) (v : SemVer) (hv : v.Valid)
    (hns : '/' ∉ nsp) :
    StreamProtocol.fromStr (StreamProtocol.new nsp nm v).toText =
      .ok (StreamProtocol.new nsp nm v) := by
  have htext : (StreamProtocol.new nsp nm v).toText =
      (nsp ++ '/' :: nm) ++ '@' :: versionToString v := by
    simp [StreamProtocol.new, StreamProtocol.toText]
  rw [htext]
  unfold StreamProtocol.fromStr
  rw [rsplitOnce_append _ _ (at_not_mem_versionToString hv)]
  dsimp only
  rw [splitOnce_append nsp nm hns]
  dsimp only
  rw [parseVersion_versionToString hv]
  rfl

/-- Print-of-parse: formatting a successfully parsed protocol string yields
the input back. -/
theorem toText_fromStr {s : List Char} {p : StreamProtocol}
    (h : StreamProtocol.fromStr s = .ok p) : p.toText = s := by
  unfold StreamProtocol.fromStr at h
  cases h1 : rsplitOnce '@' s with
  | none => rw [h1] at h; exact absurd h (by simp)
  | some pv =>
    obtain ⟨path, versionStr⟩ := pv
    rw [h1] at h
    dsimp only at h
    obtain ⟨hs, _⟩ := rsplitOnce_eq h1
    cases h2 : splitOnce '/' path with
    | none => rw [h2] at h; exact absurd h (by simp)
    | some nn =>
      obtain ⟨nsp, nm⟩ := nn
      rw [h2] at h
      dsimp only at h
      obtain ⟨hpath, _⟩ := splitOnce_eq h2
      cases h3 : parseVersion versionStr with
      | none => rw [h3] at h; exact absurd h (by simp)
      | some v =>
        rw [h3] at h
        dsimp only at h
        have hp := Except.ok.inj h
        obtain ⟨hvs, _⟩ := versionToString_parseVersion h3
        rw [← hp]
        unfold StreamProtocol.toText
        rw [hvs, hs, hpath]

instance {e a : Type} [DecidableEq e] [DecidableEq a] :
    DecidableEq (Except e a) := fun x y =>
  match x, y with
  | .error u, .error w =>
    if h : u = w then .isTrue (h ▸ rfl)
    else .isFalse (fun hc => h (Except.error.inj hc))
  | .error _, .ok _ => .isFalse (fun hc => Except.noConfusion hc)
  | .ok _, .error _ => .isFalse (fun hc => Except.noConfusion hc)
  | .ok u, .ok w =>
    if h : u = w then .isTrue (h ▸ rfl)
    else .isFalse (fun hc => h (Except.ok.inj hc))

/-- C3 counterexample: `parse(format(p)) == p` fails for the protocol built
by `StreamProtocol::new` from the namespace `a/b`, the name `c` and version
`1.0.0`: its canonical text `a/b/c@1.0.0` parses back with namespace `a` and
name `b/c`, because parsing splits the path at the first slash. -/
theorem claim_C3_counterexample :
    StreamProtocol.fromStr
        (StreamProtocol.new ['a', '/', 'b'] ['c'] ⟨1, 0, 0, [], []⟩).toText ≠
      .ok (StreamProtocol.new ['a', '/', 'b'] ['c'] ⟨1, 0, 0, [], []⟩) := by
  decide

/-- C3 (amended): `parse(format(p)) == p` holds for every protocol built by
`StreamProtocol::new` from a namespace containing no `/` and a valid version
(it fails when the namespace contains `/`, since parsing splits the path at
the first slash); `format(parse(s)) == s` holds for every valid `s`
unconditionally. -/
theorem claim_C3_roundtrip :
    (∀ (nsp nm : List Char) (v : SemVer), v.Valid → '/' ∉ nsp →
      StreamProtocol.fromStr (StreamProtocol.new nsp nm v).toText =
        .ok (StreamProtocol.new nsp nm v)) ∧
    (∀ (s : List Char) (p : StreamProtocol),
      StreamProtocol.fromStr s = .ok p → p.toText = s) := by
  exact ⟨fun nsp nm v hv hns => fromStr_toText nsp nm v hv hns,
    fun s p h => toText_fromStr h⟩

/-- Witness for C3 at concrete inputs: the ping protocol identifier
round-trips in both directions. -/
theorem claim_C3_roundtrip_witness :
    StreamProtocol.fromStr
        (StreamProtocol.new ['p', 'i'] ['n', 'g'] ⟨0, 0, 1, [], []⟩).toText =
      .ok (StreamProtocol.new ['p', 'i'] ['n', 'g'] ⟨0, 0, 1, [], []⟩) ∧
    (StreamProtocol.new ['p', 'i'] ['n', 'g'] ⟨0, 0, 1, [], []⟩).toText =
      ['p', 'i', '/', 'n', 'g', '@', '0', '.', '0', '.', '1'] := by
  constructor
  · exact claim_C3_roundtrip.1 ['p', 'i'] ['n', 'g'] ⟨0, 0, 1, [], []⟩
      (by decide) (by decide)
  · exact claim_C3_roundtrip.2
      ['p', 'i', '/', 'n', 'g', '@', '0', '.', '0', '.', '1'] _ (by decide)

/-! ### Negotiator (outbound and inbound substream handshake)

The negotiators are poll-driven state machines; a completed run is embedded
as a function of the eventual outcome of each I/O step (an environment).
I/O errors and substreams are opaque and embedded as `Nat` tokens. -/

/-- `NegotiatorStreamError` of `connection/negotiator.rs`. -/
inductive NegotiatorStreamError where
  | timeout
  | ioError (e : Nat)
  | negotiationFailed
deriving DecidableEq, Repr

/-- Outcome of polling the framed stream for the remote's frame:
the stream ended (`Poll::Ready(None)`), an I/O error, or a frame whose
payload either decodes (via serde_json) to a protocol list or does not. -/
inductive RecvOutcome where
  | closed
  | ioError (e : Nat)
  | frame (decoded : Option (List StreamProtocol))
deriving DecidableEq, Repr

/-- The eventual result of each I/O step of a negotiator run (`none` for the
error fields means the step succeeds). -/
structure NegotiatorEnv where
  timedOut : Bool
  sendReady : Option Nat
  startSend : Option Nat
  flush : Option Nat
  recv : RecvOutcome
deriving DecidableEq, Repr

/-- Result of driving a negotiator future to completion: an `unwrap` panic,
a `NegotiatorStreamError`, or success carrying the substream handed back
(`Ok(io.into_inner())` — the source returns no selected protocol). -/
inductive NegotiatorRunResult where
  | crash
  | failure (e : NegotiatorStreamError)
  | success (substream : Nat)
deriving DecidableEq, Repr

set_option linter.unusedVariables false in
/-- `OutboundStream::poll` driven to completion: check the timeout, send the
local list, flush, then receive the remote list.  A received frame that
decodes completes the run with the bare substream — the decoded remote list
is only logged, never intersected with `protocols`; a frame that does not
decode hits `serde_json::from_slice(..).unwrap()` and panics. -/
def outboundRun (protocols : List StreamProtocol) (substream : Nat)
    (env : NegotiatorEnv) : NegotiatorRunResult :=
  if env.timedOut then .failure .timeout
  else
    match env.sendReady with
    | some e => .failure (.ioError e)
    | none =>
      match env.startSend with
      | some e => .failure (.ioError e)
      | none =>
        match env.flush with
        | some e => .failure (.ioError e)
        | none =>
          match env.recv with
          | .closed => .failure .negotiationFailed
          | .ioError e => .failure (.ioError e)
          | .frame none => .crash
          | .frame (some _) => .success substream

set_option linter.unusedVariables false in
/-- `InboundStream::poll` driven to completion: check the timeout, receive
the remote list, then send the local list and flush.  Like the outbound
side, the decoded remote list is never consulted. -/
def inboundRun (protocols : List StreamProtocol) (substream : Nat)
    (env : NegotiatorEnv) : NegotiatorRunResult :=
  if env.timedOut then .failure .timeout
  else
    match env.recv with
    | .closed => .failure .negotiationFailed
    | .ioError e => .failure (.ioError e)
    | .frame none => .crash
    | .frame (some _) =>
      match env.sendReady with
      | some e => .failure (.ioError e)
      | none =>
        match env.startSend with
        | some e => .failure (.ioError e)
        | none =>
          match env.flush with
          | some e => .failure (.ioError e)
          | none => .success substream

/-- Modelled from the spec: the selection rule the specification prescribes
for the negotiator — the first entry of the local list that also appears in
the remote list (`none` when the intersection is empty). -/
def specSelectedProtocol (locals remote : List StreamProtocol) :
    Option StreamProtocol :=
  locals.find? (fun p => decide (p ∈ remote))

/-- C1 counterexample: with local list `[a/x@1.0.0]` and a received remote
list `[b/y@1.0.0]` the intersection is empty, yet both negotiators complete
successfully instead of failing with `NegotiationFailed` — and the run
result carries no selected protocol at all. -/
theorem claim_C1_counterexample :
    specSelectedProtocol
        [StreamProtocol.new ['a'] ['x'] ⟨1, 0, 0, [], []⟩]
        [StreamProtocol.new ['b'] ['y'] ⟨1, 0, 0, [], []⟩] = none ∧
    outboundRun [StreamProtocol.new ['a'] ['x'] ⟨1, 0, 0, [], []⟩] 7
        ⟨false, none, none, none,
          .frame (some [StreamProtocol.new ['b'] ['y'] ⟨1, 0, 0, [], []⟩])⟩ =
      .success 7 ∧
    inboundRun [StreamProtocol.new ['a'] ['x'] ⟨1, 0, 0, [], []⟩] 7
        ⟨false, none, none, none,
          .frame (some [StreamProtocol.new ['b'] ['y'] ⟨1, 0, 0, [], []⟩])⟩ ≠
      .failure .negotiationFailed := by
  refine ⟨by decide, rfl, by decide⟩

/-- C1 (amended): the negotiators perform no protocol selection and no
intersection check.  Whenever the handshake I/O succeeds and the remote's
frame decodes, the run completes yielding only the underlying substream,
whatever the two lists are; `NegotiationFailed` arises exactly when the
remote closes the stream before sending its list. -/
theorem claim_C1_negotiator :
    ∀ (locals remote : List StreamProtocol) (s : Nat),
      outboundRun locals s ⟨false, none, none, none, .frame (some remote)⟩ =
          .success s ∧
      inboundRun locals s ⟨false, none, none, none, .frame (some remote)⟩ =
          .success s ∧
      outboundRun locals s ⟨false, none, none, none, .closed⟩ =
          .failure .negotiationFailed ∧
      inboundRun locals s ⟨false, none, none, none, .closed⟩ =
          .failure .negotiationFailed := by
  intro locals remote s
  exact ⟨rfl, rfl, rfl, rfl⟩

/-- C10: when the remote's length-prefixed frame arrives but its payload is
not a valid JSON encoding of a protocol list, both negotiators panic via
`unwrap` (`crash`), which is none of the declared failure modes. -/
theorem claim_C10_undecodable_frame :
    ∀ (locals : List StreamProtocol) (s : Nat),
      outboundRun locals s ⟨false, none, none, none, .frame none⟩ = .crash ∧
      inboundRun locals s ⟨false, none, none, none, .frame none⟩ = .crash ∧
      (∀ e : NegotiatorStreamError,
        outboundRun locals s ⟨false, none, none, none, .frame none⟩ ≠
          .failure e ∧
        inboundRun locals s ⟨false, none, none, none, .frame none⟩ ≠
          .failure e) := by
  intro locals s
  refine ⟨rfl, rfl, fun e => ⟨?_, ?_⟩⟩
  · intro hc
    rw [show outboundRun locals s ⟨false, none, none, none, .frame none⟩ =
      .crash from rfl] at hc
    exact NegotiatorRunResult.noConfusion hc
  · intro hc
    rw [show inboundRun locals s ⟨false, none, none, none, .frame none⟩ =
      .crash from rfl] at hc
    exact NegotiatorRunResult.noConfusion hc

/-! ### Peer manager: pending-peer events, close routine, driver events

Peer ids, muxers, multiaddresses, I/O errors and `PendingPeer` bookkeeping
payloads (origin, abort notifier, accept timestamp) are opaque to the
modelled logic and embedded as `Nat` tokens.  The wall-clock `established_in`
duration of the `ConnectionEstablished` event is not modelled (real time). -/

/-- `TransportError<io::Error>` of the core crate. -/
inductive TransportError where
  | multiaddrNotSupported (addr : Nat)
  | other (e : Nat)
deriving DecidableEq, Repr

/-- `PendingOutboundConnectionError` / `PendingInboundConnectionError` of
`peer.rs` — two distinct Rust enums with the same shape. -/
inductive PendingConnectionError where
  | aborted
  | transport (e : TransportError)
deriving DecidableEq, Repr

/-- `task::PendingPeerEvent`: the upgrade task's report, tagged
`Either::Left` (outbound) or `Either::Right` (inbound) on failure. -/
inductive PendingPeerEvent where
  | connectionEstablished (connection_id peer_id muxer : Nat)
  | pendingFailed (connection_id : Nat)
      (error : Sum PendingConnectionError PendingConnectionError)
deriving DecidableEq, Repr

/-- Resolution of `select(abort_receiver, dial_future)` in
`new_pending_outgoing_peer`: abort, upgrade, or a transport error. -/
inductive OutgoingTaskOutcome where
  | aborted
  | upgraded (peer_id muxer : Nat)
  | failed (e : TransportError)
deriving DecidableEq, Repr

/-- Resolution of `select(abort_receiver, upgrade_future)` in
`new_pending_inbound_peer`: the failure payload is a bare `io::Error`. -/
inductive InboundTaskOutcome where
  | aborted
  | upgraded (peer_id muxer : Nat)
  | failed (e : Nat)
deriving DecidableEq, Repr

/-- `task::new_pending_outgoing_peer`: the single event the task sends on
each outcome (`Either::Left` tags). -/
def new_pending_outgoing_peer (connection_id : Nat) :
    OutgoingTaskOutcome → PendingPeerEvent
  | .aborted => .pendingFailed connection_id (.inl .aborted)
  | .upgraded pid mux => .connectionEstablished connection_id pid mux
  | .failed e => .pendingFailed connection_id (.inl (.transport e))

/-- `task::new_pending_inbound_peer`: the single event the task sends on
each outcome (`Either::Right` tags; the io error is wrapped in
`TransportError::Other`). -/
def new_pending_inbound_peer (connection_id : Nat) :
    InboundTaskOutcome → PendingPeerEvent
  | .aborted => .pendingFailed connection_id (.inr .aborted)
  | .upgraded pid mux => .connectionEstablished connection_id pid mux
  | .failed e => .pendingFailed connection_id (.inr (.transport (.other e)))

/-- `manager::PeerEvent`. -/
inductive PeerEvent where
  | pendingOutboundConnectionError (connection_id : Nat)
      (error : PendingConnectionError)
  | pendingInboundConnectionError (connection_id : Nat)
      (error : PendingConnectionError)
  | connectionEstablished (origin connection_id peer_id muxer : Nat)
deriving DecidableEq, Repr

/-- The manager state relevant to pending-event handling: the `pending` map
(association list keyed by connection id, payload the `PendingPeer` token)
and the connection-id pool. -/
structure ManagerState where
  pending : List (Nat × Nat)
  pool : Slab
deriving DecidableEq, Repr

/-- `Manager::handle_pending_peer_event_pending_failed`: drop the pending
entry, release the connection id (`ConnectionId::remove` panics — `none` —
when the id is not live), and emit the direction-matching error event. -/
def handle_pending_peer_event_pending_failed (st : ManagerState)
    (connection_id : Nat)
    (error : Sum PendingConnectionError PendingConnectionError) :
    Option (ManagerState × PeerEvent) :=
  let pending' := st.pending.filter (fun kv => kv.1 != connection_id)
  match st.pool.removeOp connection_id with
  | none => none
  | some pool' =>
    some (⟨pending', pool'⟩,
      match error with
      | .inl e => .pendingOutboundConnectionError connection_id e
      | .inr e => .pendingInboundConnectionError connection_id e)

/-- `Manager::handle_pending_peer_event_connection_established`: remove the
pending entry (`.expect` panics — `none` — when absent) and emit
`ConnectionEstablished` carrying its origin. -/
def handle_pending_peer_event_connection_established (st : ManagerState)
    (connection_id peer_id muxer : Nat) : Option (ManagerState × PeerEvent) :=
  match st.pending.find? (fun kv => kv.1 == connection_id) with
  | none => none
  | some kv =>
    some (⟨st.pending.filter (fun kv2 => kv2.1 != connection_id), st.pool⟩,
      .connectionEstablished kv.2 connection_id peer_id muxer)

/-- `Manager::handle_pending_peer_event`: dispatch on the task event. -/
def handle_pending_peer_event (st : ManagerState) :
    PendingPeerEvent → Option (ManagerState × PeerEvent)
  | .connectionEstablished cid pid mux =>
    handle_pending_peer_event_connection_established st cid pid mux
  | .pendingFailed cid err => handle_pending_peer_event_pending_failed st cid err

/-- C4: for every failed upgrade (abort or transport failure, outbound or
inbound) with a live connection id C, the manager handles the task's single
report by emitting exactly one direction-matching
`Pending{Out,In}boundConnectionError` event carrying C, removing C from the
pending map, and releasing C back to the id pool (other ids untouched). -/
theorem claim_C4_failed_upgrade (st : ManagerState) (cid : Nat)
    (hlive : st.pool.live cid) :
    (∀ o : OutgoingTaskOutcome, (∀ pid mux, o ≠ .upgraded pid mux) →
      ∃ st' e,
        handle_pending_peer_event st (new_pending_outgoing_peer cid o) =
          some (st', PeerEvent.pendingOutboundConnectionError cid e) ∧
        (∀ kv ∈ st'.pending, kv.1 ≠ cid) ∧ ¬ st'.pool.live cid ∧
        (∀ j, j ≠ cid → (st'.pool.live j ↔ st.pool.live j))) ∧
    (∀ o : InboundTaskOutcome, (∀ pid mux, o ≠ .upgraded pid mux) →
      ∃ st' e,
        handle_pending_peer_event st (new_pending_inbound_peer cid o) =
          some (st', PeerEvent.pendingInboundConnectionError cid e) ∧
        (∀ kv ∈ st'.pending, kv.1 ≠ cid) ∧ ¬ st'.pool.live cid ∧
        (∀ j, j ≠ cid → (st'.pool.live j ↔ st.pool.live j))) := by
  have hl' : st.pool.entries[cid]? = some .occupied := hlive
  have hrem : st.pool.removeOp cid =
      some ⟨st.pool.entries.set cid (.vacant st.pool.next), cid⟩ := by
    simp [Slab.removeOp, hl']
  have hcilt : cid < st.pool.entries.length := by
    by_contra hc
    rw [List.getElem?_eq_none (by omega)] at hl'
    exact absurd hl' (by simp)
  have hnotlive : ¬ (Slab.mk (st.pool.entries.set cid (.vacant st.pool.next))
      cid).live cid := by
    simp [Slab.live, slab_getElem?_set_self _ hcilt]
  have hframe : ∀ j, j ≠ cid →
      ((Slab.mk (st.pool.entries.set cid (.vacant st.pool.next)) cid).live j ↔
        st.pool.live j) := by
    intro j hj
    simp [Slab.live, slab_getElem?_set_ne _ (fun hc => hj hc.symm)]
  have hpending : ∀ kv ∈ st.pending.filter (fun kv => kv.1 != cid),
      kv.1 ≠ cid := by
    intro kv hkv
    have := List.of_mem_filter hkv
    simpa using this
  constructor
  · intro o hno
    cases o with
    | aborted =>
      refine ⟨⟨st.pending.filter (fun kv => kv.1 != cid), ⟨st.pool.entries.set cid (.vacant st.pool.next), cid⟩⟩, .aborted, ?_, hpending, hnotlive, hframe⟩
      simp [new_pending_outgoing_peer, handle_pending_peer_event,
        handle_pending_peer_event_pending_failed, hrem]
    | upgraded pid mux => exact absurd rfl (hno pid mux)
    | failed e =>
      refine ⟨⟨st.pending.filter (fun kv => kv.1 != cid), ⟨st.pool.entries.set cid (.vacant st.pool.next), cid⟩⟩, .transport e, ?_, hpending, hnotlive, hframe⟩
      simp [new_pending_outgoing_peer, handle_pending_peer_event,
        handle_pending_peer_event_pending_failed, hrem]
  · intro o hno
    cases o with
    | aborted =>
      refine ⟨⟨st.pending.filter (fun kv => kv.1 != cid), ⟨st.pool.entries.set cid (.vacant st.pool.next), cid⟩⟩, .aborted, ?_, hpending, hnotlive, hframe⟩
      simp [new_pending_inbound_peer, handle_pending_peer_event,
        handle_pending_peer_event_pending_failed, hrem]
    | upgraded pid mux => exact absurd rfl (hno pid mux)
    | failed e =>
      refine ⟨⟨st.pending.filter (fun kv => kv.1 != cid), ⟨st.pool.entries.set cid (.vacant st.pool.next), cid⟩⟩, .transport (.other e), ?_, hpending, hnotlive, hframe⟩
      simp [new_pending_inbound_peer, handle_pending_peer_event,
        handle_pending_peer_event_pending_failed, hrem]

/-- Witness for C4 at a concrete state: one live id 0 with one pending
entry; an aborted outbound dial yields exactly the outbound error event. -/
theorem claim_C4_failed_upgrade_witness :
    ∃ st' e,
      handle_pending_peer_event ⟨[(0, 5)], ⟨[.occupied], 1⟩⟩
          (new_pending_outgoing_peer 0 .aborted) =
        some (st', PeerEvent.pendingOutboundConnectionError 0 e) ∧
      (∀ kv ∈ st'.pending, kv.1 ≠ 0) ∧ ¬ st'.pool.live 0 ∧
      (∀ j, j ≠ 0 → (st'.pool.live j ↔
        (Slab.mk [SlabEntry.occupied] 1).live j)) :=
  (claim_C4_failed_upgrade ⟨[(0, 5)], ⟨[.occupied], 1⟩⟩ 0 (by decide)).1
    .aborted (by intro pid mux h; exact OutgoingTaskOutcome.noConfusion h)

/-- `ConnectionError` (defined in the connection module root, which is not
under `src/`; shape per the spec and its uses in `task.rs`): an I/O error or
a protocol-layer error from the handler. -/
inductive ConnectionError where
  | io (e : Nat)
  | protocol (e : Nat)
deriving DecidableEq, Repr

/-- `task::EstablishedConnectionEvent` (payload type `τ` is the handler's
`ToProtocol` event type). -/
inductive EstablishedConnectionEvent (τ : Type) where
  | closed (connection_id peer_id : Nat) (error : Option ConnectionError)
  | addressChange (connection_id peer_id new_address : Nat)
  | notify (connection_id peer_id : Nat) (event : τ)
deriving DecidableEq, Repr

/-- An externally observable step of the close routine. -/
inductive CloseAction (τ : Type) where
  | closeCommandInbox
  | awaitMuxerClose
  | send (e : EstablishedConnectionEvent τ)
deriving DecidableEq, Repr

/-- `task::handle_close`: close the command inbox, obtain from
`connection.close()` the residual handler events and the muxer-close future,
forward every residual event as `Notify`, then — only when no error was
recorded earlier — await the muxer close and adopt its error; finally send
one `Closed` event.  The result lists the observable steps in order;
`remaining_events` and `muxerCloseError` stand for the environment delivered
by `connection.close()`. -/
def handle_close (τ : Type) (connection_id peer_id : Nat)
    (remaining_events : List τ) (muxerCloseError : Option Nat)
    (error : Option ConnectionError) : List (CloseAction τ) :=
  CloseAction.closeCommandInbox ::
    remaining_events.map
      (fun e => CloseAction.send (.notify connection_id peer_id e)) ++
    (match error with
     | none =>
       [CloseAction.awaitMuxerClose,
        CloseAction.send (.closed connection_id peer_id
          (muxerCloseError.map ConnectionError.io))]
     | some e =>
       [CloseAction.send (.closed connection_id peer_id (some e))])

/-- The `Closed` events of a close trace, by their error payload. -/
def closedEvents {τ : Type} (trace : List (CloseAction τ)) :
    List (Option ConnectionError) :=
  trace.filterMap (fun a =>
    match a with
    | .send (.closed _ _ e) => some e
    | _ => none)

/-- C5 counterexample: when an error was already recorded when the close
began, `handle_close` never awaits the muxer close (the claim requires the
routine to close the muxer and await its completion before emitting
`Closed`); the muxer-close future is dropped instead. -/
theorem claim_C5_counterexample :
    CloseAction.awaitMuxerClose ∉
      handle_close Nat 1 2 [] (some 9) (some (ConnectionError.io 3)) ∧
    handle_close Nat 1 2 [] (some 9) (some (ConnectionError.io 3)) =
      [CloseAction.closeCommandInbox,
       CloseAction.send (.closed 1 2 (some (ConnectionError.io 3)))] := by
  decide

/-- C5 (amended): the close routine first closes the command inbox, then
forwards every residual handler event, awaits the muxer close only when no
error was recorded during the connection's lifetime, and finally emits
exactly one `Closed` event, as the last step, whose error is the first error
recorded — a muxer-close error is adopted only when no earlier error
exists and never replaces one. -/
theorem claim_C5_handle_close (τ : Type) (cid pid : Nat) (evs : List τ)
    (merr : Option Nat) (err : Option ConnectionError) :
    handle_close τ cid pid evs merr err =
      CloseAction.closeCommandInbox ::
        evs.map (fun e => CloseAction.send (.notify cid pid e)) ++
        (if err.isSome then [] else [CloseAction.awaitMuxerClose]) ++
        [CloseAction.send (.closed cid pid
          (match err with
           | some e => some e
           | none => merr.map ConnectionError.io))] ∧
    closedEvents (handle_close τ cid pid evs merr err) =
      [match err with
       | some e => some e
       | none => merr.map ConnectionError.io] ∧
    (handle_close τ cid pid evs merr err).getLast? =
      some (CloseAction.send (.closed cid pid
        (match err with
         | some e => some e
         | none => merr.map ConnectionError.io))) := by
  refine ⟨?_, ?_, ?_⟩
  · cases err <;> simp [handle_close]
  · cases err <;>
      simp [handle_close, closedEvents, List.filterMap_append]
  · cases err <;>
      (simp only [handle_close]
       rw [List.getLast?_append_cons]
       rfl)

/-- `task::PeerEvent` — the event type of established-connection drivers: an
empty enum with no inhabitants. -/
inductive TaskPeerEvent where

/-- Outcome of one dispatch step inside `Manager::poll`: a panic (`crash`),
or a manager event. -/
inductive PollOutcome (α : Type) where
  | crash
  | ready (a : α)

/-- `Manager::handle_peer_event`: the body is `todo!()` — it panics without
inspecting the event. -/
def Manager.handle_peer_event (_st : ManagerState) (_e : TaskPeerEvent) :
    PollOutcome (ManagerState × PeerEvent) :=
  .crash

/-- The event `Manager::poll` dequeues in one dispatch: a driver event from
the established-connections channel, or a pending-task event. -/
inductive ManagerPollInput where
  | peerEvent (e : TaskPeerEvent)
  | pendingEvent (e : PendingPeerEvent)

/-- One dispatch step of `Manager::poll`: a driver event goes to
`handle_peer_event`; a pending-task event goes to
`handle_pending_peer_event` (whose own panics are `crash`). -/
def Manager.pollStep (st : ManagerState) :
    ManagerPollInput → PollOutcome (ManagerState × PeerEvent)
  | .peerEvent e => Manager.handle_peer_event st e
  | .pendingEvent e =>
    match handle_pending_peer_event st e with
    | none => .crash
    | some r => .ready r

/-- C8: whenever `Manager::poll` receives any event from an established-
connection driver's event channel, it reaches the unimplemented
`handle_peer_event` branch and panics; moreover the driver event type is
uninhabited, so no driver event can ever be handled without aborting. -/
theorem claim_C8_driver_events_crash :
    (∀ (st : ManagerState) (e : TaskPeerEvent),
      Manager.pollStep st (.peerEvent e) = .crash) ∧
    IsEmpty TaskPeerEvent :=
  ⟨fun _ _ => rfl, ⟨fun e => nomatch e⟩⟩

/-! ### Node::dial and multiaddr protocol extraction -/

/-- One component of a `Multiaddr`: the `WebTransport` protocol tag or any
other component (opaque). -/
inductive MultiaddrComponent where
  | webTransport
  | otherComponent (tag : Nat)
deriving DecidableEq, Repr

/-- The transport-selection key (`rs_mojave_network_core::Protocol`). -/
inductive TransportKey where
  | webTransport
deriving DecidableEq, Repr

/-- The `Error` variants of `error.rs` reachable from `Node::dial`'s
validation. -/
inductive NodeError where
  | noProtocolsInMultiaddr (addr : List MultiaddrComponent)
  | transportNotFound (key : TransportKey)
deriving DecidableEq, Repr

/-- `extract_protocol_from_multiaddr`: scan the components for
`WebTransport`; fail with `NoProtocolsInMultiaddr` when absent. -/
def extract_protocol_from_multiaddr (addr : List MultiaddrComponent) :
    Except NodeError TransportKey :=
  if addr.any (fun c => decide (c = .webTransport)) then .ok .webTransport
  else .error (.noProtocolsInMultiaddr addr)

/-- The node state relevant to `dial`: the set of configured transport keys
and the peer manager (pending map and the connection-id pool). -/
structure NodeState where
  transports : List TransportKey
  manager : ManagerState
deriving DecidableEq, Repr

/-- `Node::dial`: first allocate a fresh `ConnectionId` (`none` models the
pool's unreachable-state panic), then extract the transport key and look the
transport up; on either validation failure return the error — without
touching the pending map and without releasing the id.  On success the dial
future (whatever its eventual outcome) is handed to
`peer_manager.add_outgoing`, which inserts the pending entry. -/
def Node.dial (st : NodeState) (addr : List MultiaddrComponent)
    (pendingPeerTok : Nat) : Option (NodeState × Except NodeError Unit) :=
  match st.manager.pool.insertOp with
  | none => none
  | some (pool', connection_id) =>
    let st1 : NodeState := ⟨st.transports, ⟨st.manager.pending, pool'⟩⟩
    match extract_protocol_from_multiaddr addr with
    | .error e => some (st1, .error e)
    | .ok key =>
      if key ∈ st.transports then
        some (⟨st.transports,
          ⟨(connection_id, pendingPeerTok) :: st.manager.pending, pool'⟩⟩,
          .ok ())
      else some (st1, .error (.transportNotFound key))

/-- `dial`'s validation fails: no recognized protocol in the address, or no
transport configured for the extracted key. -/
def dialValidationFails (st : NodeState) (addr : List MultiaddrComponent) :
    Bool :=
  match extract_protocol_from_multiaddr addr with
  | .error _ => true
  | .ok key => !(decide (key ∈ st.transports))

/-- C9: `Node::dial` allocates a fresh `ConnectionId` before validating the
address, so on every dial that fails validation
(`NoProtocolsInMultiaddr` or `TransportNotFound`) the freshly allocated id
is live afterwards, was not live before, is neither inserted into the
pending map (which is unchanged) nor released — the pool's live set grows by
exactly that id on every such failed dial. -/
theorem claim_C9_dial_leaks_id (st : NodeState)
    (addr : List MultiaddrComponent) (tok : Nat)
    (hwf : st.manager.pool.WF)
    (hfail : dialValidationFails st addr = true) :
    ∃ st' e cid,
      Node.dial st addr tok = some (st', .error e) ∧
      ¬ st.manager.pool.live cid ∧
      st'.manager.pool.live cid ∧
      (∀ j, j ≠ cid → (st'.manager.pool.live j ↔ st.manager.pool.live j)) ∧
      st'.manager.pending = st.manager.pending ∧
      st'.transports = st.transports := by
  obtain ⟨pool', cid, hins, hnl, hl, hframe, _⟩ := Slab.insertOp_spec hwf
  unfold dialValidationFails at hfail
  cases hex : extract_protocol_from_multiaddr addr with
  | error e =>
    refine ⟨⟨st.transports, ⟨st.manager.pending, pool'⟩⟩, e, cid,
      ?_, hnl, hl, hframe, rfl, rfl⟩
    unfold Node.dial
    rw [hins]
    dsimp only
    rw [hex]
  | ok key =>
    rw [hex] at hfail
    have hnot : key ∉ st.transports := by simpa using hfail
    refine ⟨⟨st.transports, ⟨st.manager.pending, pool'⟩⟩,
      .transportNotFound key, cid, ?_, hnl, hl, hframe, rfl, rfl⟩
    unfold Node.dial
    rw [hins]
    dsimp only
    rw [hex]
    dsimp only
    rw [if_neg hnot]

/-- Witness for C9: dialing an address with no recognized protocol from a
fresh node leaks connection id 0 into the pool. -/
theorem claim_C9_dial_leaks_id_witness :
    ∃ (st' : NodeState) (e : NodeError) (cid : Nat),
      Node.dial ⟨[TransportKey.webTransport], ⟨[], Slab.empty⟩⟩
          [MultiaddrComponent.otherComponent 3] 0 = some (st', .error e) ∧
      ¬ (Slab.empty).live cid ∧
      st'.manager.pool.live cid ∧
      (∀ j, j ≠ cid → (st'.manager.pool.live j ↔ (Slab.empty).live j)) ∧
      st'.manager.pending = [] ∧
      st'.transports = [TransportKey.webTransport] :=
  claim_C9_dial_leaks_id ⟨[TransportKey.webTransport], ⟨[], Slab.empty⟩⟩
    [MultiaddrComponent.otherComponent 3] 0 Slab.WF_empty (by decide)

/-! ### Ping protocol: config, errors, handler

Durations are embedded as milliseconds (`Nat`).  Streams and in-flight
futures are opaque tokens.  The handler's interval timer is cooperative;
whether a `Delay` poll reports ready is part of the poll environment, and
`Delay::reset` calls are therefore not tracked as state. -/

/-- `Duration::from_secs`. -/
def durationFromSecs (s : Nat) : Nat := 1000 * s

/-- `ping::Config`. -/
structure PingConfig where
  timeout : Nat
  interval : Nat
deriving DecidableEq, Repr

/-- `Config::new()`: timeout 20 s, interval 15 s. -/
def PingConfig.new : PingConfig :=
  ⟨durationFromSecs 20, durationFromSecs 15⟩

/-- `ping::Error`. -/
inductive PingError where
  | timeout (payload : Nat)
  | unsupportedProtocol
  | other (e : Nat)
  | io (e : Nat)
deriving DecidableEq, Repr

/-- Resolution of `select(send_ping(stream), Delay::new(timeout))` in the
handler's `send_ping` wrapper: the ping completes (with the stream back and
the round-trip time) or fails with an io error, or the timer wins. -/
inductive PingSelectOutcome where
  | pingOk (stream rtt : Nat)
  | pingErr (e : Nat)
  | delayFirst
deriving DecidableEq, Repr

set_option linter.unusedVariables false in
/-- `handler.rs`'s `send_ping` wrapper: on timeout the source surfaces the
literal `Error::Timeout(10)` — the configured `timeout` only bounds the
select, it is not the payload. -/
def send_ping (timeout : Nat) (outcome : PingSelectOutcome) :
    Except PingError (Nat × Nat) :=
  match outcome with
  | .pingOk s rtt => .ok (s, rtt)
  | .pingErr e => .error (.io e)
  | .delayFirst => .error (.timeout 10)

/-- C7: when the select in `send_ping` is won by the delay, the handler
surfaces `Error::Timeout(10)` for every configured timeout; with the
default configuration the configured timeout is 20000 ms, so the surfaced
payload is not the configured timeout's millisecond value as the claim
requires. -/
theorem claim_C7_timeout_payload :
    (∀ timeout : Nat,
      send_ping timeout .delayFirst = .error (.timeout 10)) ∧
    PingConfig.new.timeout = 20000 ∧
    send_ping PingConfig.new.timeout .delayFirst ≠
      .error (.timeout PingConfig.new.timeout) := by
  refine ⟨fun _ => rfl, rfl, by decide⟩

/-- `handler.rs`'s `State`. -/
inductive HandlerState where
  | inactive (reported : Bool)
  | active
deriving DecidableEq, Repr

/-- `handler.rs`'s `OutboundState`: negotiating a substream, idle with a
stream, or an in-flight ping future (token). -/
inductive OutboundState where
  | openStream
  | idle (stream : Nat)
  | ping (fut : Nat)
deriving DecidableEq, Repr

/-- The ping `Handler`'s state (config and timers aside, see the section
comment). -/
structure PingHandler where
  state : HandlerState
  outbound : Option OutboundState
  pong : Option Nat
  pendingErrors : List PingError
deriving DecidableEq, Repr

/-- `Handler::new`: active, no substreams, no queued errors. -/
def PingHandler.new : PingHandler := ⟨.active, none, none, []⟩

/-- `ConnectionEvent` of the node crate (substreams as tokens). -/
inductive ConnectionEvent where
  | newInboundStream (s : Nat)
  | newOutboundStream (s : Nat)
  | failNegotiation (err : NegotiatorStreamError)
  | addressChange (addr : Nat)
deriving DecidableEq, Repr

/-- The opaque token for the `io::Error` the handler builds when a
negotiation times out. -/
def negotiationTimedOutIoError : Nat := 0

/-- `Handler::on_connection_event`: an inbound stream starts a pong future;
an outbound stream starts a ping; `FailNegotiation` clears the outbound
state and queues an io error (timeout, io) or goes inactive-unreported
(`NegotiationFailed`).  `AddressChange` has no arm in the source match and
is modelled as a no-op. -/
def PingHandler.on_connection_event (h : PingHandler) :
    ConnectionEvent → PingHandler
  | .newInboundStream s => { h with pong := some s }
  | .newOutboundStream s => { h with outbound := some (.ping s) }
  | .failNegotiation err =>
    match err with
    | .timeout =>
      { h with
          outbound := none
          pendingErrors := .io negotiationTimedOutIoError :: h.pendingErrors }
    | .ioError e =>
      { h with outbound := none, pendingErrors := .io e :: h.pendingErrors }
    | .negotiationFailed =>
      { h with outbound := none, state := .inactive false }
  | .addressChange _ => h

/-- `ProtocolHandlerEvent` with the ping handler's `ToProtocol` payload
(`Result<Duration, Error>`, duration in ms). -/
inductive ProtocolHandlerEvent where
  | outboundSubstreamRequest
  | notifyProtocol (e : Except PingError Nat)
deriving DecidableEq, Repr

/-- The environment of one `Handler::poll` call: the outcome of polling the
pong future (`none` = pending), and the successive outcomes of the interval
and ping polls performed inside the loop. -/
structure PollEnv where
  pongPoll : Option (Except Nat Nat)
  intervalFired : List Bool
  pingPoll : List (Option (Except PingError (Nat × Nat)))
deriving DecidableEq, Repr

/-- The loop inside `Handler::poll`.  Each iteration either returns, breaks,
or strictly advances (idle becomes ping; a failed ping queues an error that
the next iteration pops), so no call runs more than three iterations; the
fuel of 4 used below is therefore never exhausted. -/
def PingHandler.pollLoop :
    Nat → PingHandler → List Bool →
      List (Option (Except PingError (Nat × Nat))) →
      PingHandler × Option ProtocolHandlerEvent
  | 0, h, _, _ => (h, none)
  | fuel + 1, h, intervals, pings =>
    match h.pendingErrors with
    | e :: rest =>
      ({ h with pendingErrors := rest },
        some (.notifyProtocol (.error e)))
    | [] =>
      match h.outbound with
      | some .openStream => ({ h with outbound := some .openStream }, none)
      | some (.idle s) =>
        match intervals with
        | true :: intervals' =>
          PingHandler.pollLoop fuel
            { h with outbound := some (.ping s) } intervals' pings
        | _ => ({ h with outbound := some (.idle s) }, none)
      | some (.ping f) =>
        match pings with
        | some (.ok (s, rtt)) :: _ =>
          ({ h with outbound := some (.idle s) },
            some (.notifyProtocol (.ok rtt)))
        | some (.error e) :: pings' =>
          PingHandler.pollLoop fuel
            { h with
                outbound := none
                pendingErrors := e :: h.pendingErrors } intervals pings'
        | _ => ({ h with outbound := some (.ping f) }, none)
      | none =>
        match intervals with
        | true :: _ =>
          ({ h with outbound := some .openStream },
            some .outboundSubstreamRequest)
        | _ => (h, none)

/-- `Handler::poll`: the inactive states return first (unreported becomes
reported, emitting `UnsupportedProtocol` exactly once; reported is
quiescent); when active, the pong future is advanced and then the loop
runs. -/
def PingHandler.poll (h : PingHandler) (env : PollEnv) :
    PingHandler × Option ProtocolHandlerEvent :=
  match h.state with
  | .inactive true => (h, none)
  | .inactive false =>
    ({ h with state := .inactive true },
      some (.notifyProtocol (.error .unsupportedProtocol)))
  | .active =>
    let h1 :=
      match h.pong, env.pongPoll with
      | some _, some (.ok s) => { h with pong := some s }
      | some _, some (.error _) => { h with pong := none }
      | _, _ => h
    PingHandler.pollLoop 4 h1 env.intervalFired env.pingPoll

/-- One step of the handler's interaction with its connection driver. -/
inductive HandlerStep where
  | pollStep (env : PollEnv)
  | connEvent (e : ConnectionEvent)
deriving DecidableEq, Repr

/-- Apply one step, returning the emitted event if any
(`on_connection_event` emits nothing). -/
def PingHandler.applyStep (h : PingHandler) :
    HandlerStep → PingHandler × Option ProtocolHandlerEvent
  | .pollStep env => h.poll env
  | .connEvent e => (h.on_connection_event e, none)

/-- Run a sequence of steps, collecting every emitted event in order. -/
def PingHandler.runSteps (h : PingHandler) :
    List HandlerStep → PingHandler × List ProtocolHandlerEvent
  | [] => (h, [])
  | s :: rest =>
    let r1 := h.applyStep s
    let r2 := r1.1.runSteps rest
    (r2.1, r1.2.toList ++ r2.2)

/-- A handler in the reported-inactive state stays there and emits nothing
under any step other than a fresh `FailNegotiation(NegotiationFailed)`. -/
theorem PingHandler.inactive_step (h : PingHandler)
    (hst : h.state = .inactive true) (s : HandlerStep)
    (hs : s ≠ .connEvent (.failNegotiation .negotiationFailed)) :
    (h.applyStep s).2 = none ∧ (h.applyStep s).1.state = .inactive true := by
  cases s with
  | pollStep env =>
    simp [PingHandler.applyStep, PingHandler.poll, hst]
  | connEvent e =>
    cases e with
    | newInboundStream s => simp [PingHandler.applyStep,
        PingHandler.on_connection_event, hst]
    | newOutboundStream s => simp [PingHandler.applyStep,
        PingHandler.on_connection_event, hst]
    | addressChange a => simp [PingHandler.applyStep,
        PingHandler.on_connection_event, hst]
    | failNegotiation err =>
      cases err with
      | timeout => simp [PingHandler.applyStep,
          PingHandler.on_connection_event, hst]
      | ioError e => simp [PingHandler.applyStep,
          PingHandler.on_connection_event, hst]
      | negotiationFailed => exact absurd rfl hs

/-- A handler in the reported-inactive state emits no event over any step
sequence free of `FailNegotiation(NegotiationFailed)`. -/
theorem PingHandler.inactive_run (h : PingHandler)
    (hst : h.state = .inactive true) :
    ∀ steps : List HandlerStep,
      (∀ s ∈ steps, s ≠ .connEvent (.failNegotiation .negotiationFailed)) →
      (h.runSteps steps).2 = [] := by
  intro steps
  induction steps generalizing h with
  | nil => intro _; rfl
  | cons s rest ih =>
    intro hben
    have hs := hben s (List.mem_cons_self _ _)
    obtain ⟨hev, hst'⟩ := PingHandler.inactive_step h hst s hs
    have hrest := ih (h.applyStep s).1 hst'
      (fun s2 hm => hben s2 (List.mem_cons_of_mem _ hm))
    simp [PingHandler.runSteps, hev, hrest]

/-- C6: after a requested substream fails with `NegotiationFailed`, the next
`poll` emits exactly one `NotifyProtocol(Err(UnsupportedProtocol))`, and from
then on the handler is quiescent: over any further steps — polls in any
environment and connection events, none of which is another
`FailNegotiation(NegotiationFailed)` (the handler never requests another
substream while inactive, so none can arise) — no event is ever emitted. -/
theorem claim_C6_unsupported_once (h : PingHandler) (env : PollEnv)
    (steps : List HandlerStep)
    (hben : ∀ s ∈ steps, s ≠ .connEvent (.failNegotiation .negotiationFailed)) :
    ((h.on_connection_event
        (.failNegotiation .negotiationFailed)).poll env).2 =
      some (.notifyProtocol (.error .unsupportedProtocol)) ∧
    (((h.on_connection_event
        (.failNegotiation .negotiationFailed)).poll env).1.runSteps
      steps).2 = [] := by
  have h1st : (h.on_connection_event
      (.failNegotiation .negotiationFailed)).state = .inactive false := rfl
  constructor
  · simp [PingHandler.poll, h1st]
  · have h2st : ((h.on_connection_event
        (.failNegotiation .negotiationFailed)).poll env).1.state =
        .inactive true := by
      simp [PingHandler.poll, h1st]
    exact PingHandler.inactive_run _ h2st steps hben

/-- Witness for C6: a fresh handler hit by `NegotiationFailed` reports
`UnsupportedProtocol` on the next poll and stays silent over a later poll
and a later inbound stream. -/
theorem claim_C6_unsupported_once_witness :
    ((PingHandler.new.on_connection_event
        (.failNegotiation .negotiationFailed)).poll ⟨none, [true], []⟩).2 =
      some (.notifyProtocol (.error .unsupportedProtocol)) ∧
    (((PingHandler.new.on_connection_event
        (.failNegotiation .negotiationFailed)).poll
          ⟨none, [true], []⟩).1.runSteps
      [.pollStep ⟨none, [true], []⟩,
       .connEvent (.newInboundStream 5),
       .pollStep ⟨some (.ok 5), [true, true], []⟩]).2 = [] :=
  claim_C6_unsupported_once PingHandler.new ⟨none, [true], []⟩
    [.pollStep ⟨none, [true], []⟩,
     .connEvent (.newInboundStream 5),
     .pollStep ⟨some (.ok 5), [true, true], []⟩]
    (by decide)
